import Mathlib

/-!
A verification development for the webchat-service core, shallowly embedding
the JavaScript source into Lean.  Each component lives in its own namespace:

* `MP` — `MessageProcessor` (streaming assembly, dedup window, indicators)
* `RS` — `RetryStrategy` (exponential backoff with jitter)
* `WS` — `WebSocketManager` (connection state machine)
* `SM` — `SessionManager` (session identity and conversation log)
* `ST` — `StorageManager` (namespaced persistent store with quota recovery)

Modelling conventions, used throughout:

* JS numbers that can be fractional are `ℚ`; a JS number slot that can also
  hold `NaN` or a non-number gets a dedicated inductive wrapper.
* A JS object field that can be `undefined`/absent is an `Option`; JS
  truthiness of a string is "`≠ ""`", of a number "`≠ 0`" (and `NaN` falsy
  where it can occur).
* `EventEmitter.emit` calls are recorded in an `events` list carried in the
  state.  The `queue`/`_processQueue` pair of `MessageProcessor` emits every
  enqueued message exactly once, in FIFO order, separated by an unobservable
  delay; we therefore record a `queue.push` directly as its eventual
  `message:processed` emission.
* JS `Map`s are association lists accessed only through `listGet` /
  `listSet` / `listErase` below; `listSet` is defined as erase-then-cons,
  which is extensionally the JS `Map` behaviour (iteration order of these
  maps is never observed by the code we model).
* Timers are booleans (`armed` / `not armed`); timer expiry is a separate
  transition that none of the claims need.
-/

namespace MP

/-- `Map.get`: first value stored at the key. -/
def listGet {κ α : Type} [DecidableEq κ] (k : κ) : List (κ × α) → Option α
  | [] => none
  | p :: t => if p.1 = k then some p.2 else listGet k t

/-- `Map.delete`: drop every entry at the key. -/
def listErase {κ α : Type} [DecidableEq κ] (k : κ) : List (κ × α) → List (κ × α)
  | [] => []
  | p :: t => if p.1 = k then listErase k t else p :: listErase k t

/-- `Map.set`: overwrite the binding of the key. -/
def listSet {κ α : Type} [DecidableEq κ] (k : κ) (v : α) (l : List (κ × α)) : List (κ × α) :=
  (k, v) :: listErase k l

theorem listErase_length_le {κ α : Type} [DecidableEq κ] (k : κ) (l : List (κ × α)) :
    (listErase k l).length ≤ l.length := by
  induction l with
  | nil => simp [listErase]
  | cons p t ih => by_cases hp : p.1 = k <;> simp [listErase, hp] <;> omega

theorem listErase_length_lt {κ α : Type} [DecidableEq κ] {k : κ} {l : List (κ × α)} {v : α}
    (h : listGet k l = some v) : (listErase k l).length < l.length := by
  induction l with
  | nil => simp [listGet] at h
  | cons p t ih =>
    by_cases hp : p.1 = k
    · have := listErase_length_le k t
      simp [listErase, hp]
      omega
    · simp only [listGet, if_neg hp] at h
      have := ih h
      simp [listErase, hp]
      omega

/-- Value found in a frame's `seq` slot: a JS number (possibly `NaN`) or a
value of some other JS type. -/
inductive SeqVal : Type
  | nan : SeqVal
  | num : ℚ → SeqVal
  | nonNumber : SeqVal
deriving DecidableEq

/-- The inner `message` object of a raw frame (the fields the processor
reads; the quick-reply / list / cta enrichment fields are not modelled, no
modelled code path reads them). -/
structure RawInner where
  messageId : Option String := none
  type : Option String := none
  text : Option String := none
  media : Option String := none
deriving DecidableEq

/-- A parsed inbound frame.  A field that is absent or `undefined` in JS is
`none` here (the code never distinguishes the two on the fields we model,
except for the `'type' in raw` presence test, where we take `none` as
"absent"). -/
structure RawFrame where
  type : Option String := none
  v : Option String := none
  seq : Option SeqVal := none
  id : Option String := none
  message : Option RawInner := none
  fromField : Option String := none
  timestamp : Option ℕ := none
  metadata : Option String := none
deriving DecidableEq

/-- JS truthiness of an optional string. -/
def strTruthy : Option String → Bool
  | some s => s ≠ ""
  | none => false

/-- JS `a || b` on two optional strings. -/
def jsOr (a b : Option String) : Option String :=
  if strTruthy a then a else b

/-- A normalized message as built by `_normalizeMessage` /
`_createStreamingMessage`.  `id` is an `Option` because the synthetic-stream
path can build a message whose id is JS `null`. -/
structure Msg where
  id : Option String
  type : String
  text : Option String := none
  media : Option String := none
  metadata : Option String := none
  timestamp : ℕ
  direction : String
  status : String
deriving DecidableEq

/-- Events emitted by the processor. -/
inductive MPEvent : Type
  | processed : Msg → MPEvent
  | updated : Option String → String → String → ℕ → MPEvent
  | typingStartEv : MPEvent
  | typingStopEv : MPEvent
  | thinkingStartEv : MPEvent
  | thinkingStopEv : MPEvent
  | unknownEv : RawFrame → MPEvent
  | errorEv : String → MPEvent
deriving DecidableEq

/-- Per-stream record held in `this.streams`. -/
structure StreamData where
  text : String
  timestamp : ℕ
deriving DecidableEq

/-- The mutable state of a `MessageProcessor` instance. -/
structure ProcState where
  events : List MPEvent := []
  isTypingActive : Bool := false
  isThinkingActive : Bool := false
  typingTimerOn : Bool := false
  streams : List (Option String × StreamData) := []
  recentIncomingTexts : List String := []
  activeStreamId : Option String := none
  pendingDeltas : List (ℚ × String) := []
  nextExpectedSeq : ℕ := 1
  streamMessageEmitted : Bool := false
deriving DecidableEq

/-- Relevant configuration (`enableTypingIndicator`; the delay values do not
affect the observable event sequence in this model). -/
structure MPConfig where
  enableTypingIndicator : Bool := true
deriving DecidableEq

/-- The freshly constructed processor state. -/
def mpInit : ProcState := {}

/-- Append one emission. -/
def emitOne (e : MPEvent) (s : ProcState) : ProcState :=
  { s with events := s.events ++ [e] }

/-- `queue.push` plus the eventual FIFO `message:processed` emission of
`_processQueue` (see the header notes). -/
def pushQueue (m : Msg) (s : ProcState) : ProcState :=
  emitOne (.processed m) s

/-- `_resetStreamState`. -/
def resetStreamState (streamId : Option String) (s : ProcState) : ProcState :=
  { s with activeStreamId := streamId, pendingDeltas := [],
           nextExpectedSeq := 1, streamMessageEmitted := false }

/-- `_stopTyping`: clear the timer and emit a stop for each active flag. -/
def stopTyping (s : ProcState) : ProcState :=
  { s with typingTimerOn := false,
           isTypingActive := false,
           isThinkingActive := false,
           events := s.events
             ++ (if s.isTypingActive then [MPEvent.typingStopEv] else [])
             ++ (if s.isThinkingActive then [MPEvent.thinkingStopEv] else []) }

/-- `_extractMessageType`. -/
def extractMessageType (raw : RawFrame) : String :=
  if raw.v.isSome ∧ raw.seq.isSome ∧ raw.type.isNone then "delta"
  else if strTruthy raw.type then raw.type.getD ""
  else match raw.message with
    | some m => if strTruthy m.type then m.type.getD "" else "unknown"
    | none => "unknown"

/-- `_getMessageType`. -/
def getMessageType (raw : RawFrame) : String :=
  if strTruthy raw.type then raw.type.getD ""
  else match raw.message with
    | some m =>
      if strTruthy m.type then m.type.getD ""
      else if strTruthy m.text then "text"
      else if strTruthy m.media then "media"
      else "text"
    | none => "text"

/-- `_getMessageIdFromRaw`: `raw?.message?.messageId || raw?.id`, prefixed
with `msg_` when truthy.  (`MESSAGE_ID_PREFIX` is imported from a constants
module that is not in the sources; its value `"msg_"` is modelled from the
spec, which names the prefixed id `msg_<raw-id>`.) -/
def getMessageIdFromRaw (raw : RawFrame) : Option String :=
  let i := jsOr (raw.message.bind (·.messageId)) raw.id
  if strTruthy i then some ("msg_" ++ i.getD "") else none

/-- `_normalizeMessage`.  `freshId` stands for the `generateMessageId()`
fallback, `now` for `Date.now()`. -/
def normalizeMessage (now : ℕ) (freshId : String) (raw : RawFrame) : Msg :=
  { id := some ((jsOr (raw.message.bind (·.messageId)) (jsOr raw.id (some freshId))).getD freshId)
    type := getMessageType raw
    timestamp := match raw.timestamp with
      | some t => if t ≠ 0 then t else now
      | none => now
    direction := "incoming"
    status := "delivered"
    text := match raw.message with
      | some m => if strTruthy m.text then m.text else none
      | none => none
    media := match raw.message with
      | some m => if strTruthy m.media then m.media else none
      | none => none
    metadata := raw.metadata }

/-- `_validateMessage` (on an already-normalized message the object and
shape checks reduce to truthiness of `type`). -/
def validateMessage (m : Msg) : Bool :=
  m.type ≠ ""

/-- `_isDuplicateIncomingText`. -/
def isDuplicateIncomingText (text : String) (s : ProcState) : Bool :=
  if text = "" then false else s.recentIncomingTexts.contains text

/-- `_rememberIncomingText`: keep only the last 5. -/
def rememberIncomingText (text : String) (s : ProcState) : ProcState :=
  if text = "" then s
  else
    let l := s.recentIncomingTexts ++ [text]
    { s with recentIncomingTexts := if 5 < l.length then l.drop (l.length - 5) else l }

/-- `_processUserMessage`. -/
def processUserMessage (now : ℕ) (freshId : String)
    (raw : RawFrame) (s : ProcState) : ProcState :=
  let m := normalizeMessage now freshId raw
  if ¬ validateMessage m then emitOne (.errorEv "Invalid message format") s
  else
    let s1 := if m.direction = "incoming" ∧ (s.isTypingActive ∨ s.isThinkingActive)
              then stopTyping s else s
    if m.type = "message" ∧ m.direction = "incoming" ∧ m.text.isSome
        ∧ isDuplicateIncomingText (m.text.getD "") s1
    then s1
    else pushQueue m s1

/-- `_processStreamStart`. -/
def processStreamStart (now : ℕ) (raw : RawFrame) (s : ProcState) : ProcState :=
  match getMessageIdFromRaw raw with
  | none => emitOne (.errorEv "stream_start received without id") s
  | some messageId =>
    let s1 := resetStreamState (some messageId) s
    { s1 with streams := listSet (some messageId) ⟨"", now⟩ s1.streams }

/-- `_createStreamingMessage`. -/
def createStreamingMessage (i : Option String) (timestamp : ℕ) : Msg :=
  { id := i, type := "text", text := some "", timestamp := timestamp,
    direction := "incoming", status := "streaming" }

/-- `_initializeSyntheticStream`. -/
def initializeSyntheticStream (now : ℕ) (raw : RawFrame) (s : ProcState) : ProcState :=
  let messageId := getMessageIdFromRaw raw
  let s1 := resetStreamState messageId s
  let s2 := { s1 with streamMessageEmitted := true }
  let s3 := { s2 with streams := listSet messageId ⟨"", now⟩ s2.streams }
  pushQueue (createStreamingMessage messageId now) s3

/-- `_emitDeferredStreamMessage`.  (`streamData?.timestamp || Date.now()`:
a zero stored timestamp is falsy.) -/
def emitDeferredStreamMessage (now : ℕ) (s : ProcState) : ProcState :=
  let streamId := s.activeStreamId
  let timestamp := match listGet streamId s.streams with
    | some d => if d.timestamp ≠ 0 then d.timestamp else now
    | none => now
  let s1 := { s with streamMessageEmitted := true }
  pushQueue (createStreamingMessage streamId timestamp) s1

/-- `_handleFirstDelta`. -/
def handleFirstDelta (now : ℕ) (s : ProcState) : ProcState :=
  let s1 := if s.isTypingActive ∨ s.isThinkingActive then stopTyping s else s
  if ¬ s1.streamMessageEmitted then emitDeferredStreamMessage now s1 else s1

/-- `_appendStreamContent`. -/
def appendStreamContent (now : ℕ) (streamId : Option String) (content : String)
    (s : ProcState) : ProcState :=
  match listGet streamId s.streams with
  | none => s
  | some current =>
    let mergedText := current.text ++ content
    { s with streams := listSet streamId ⟨mergedText, now⟩ s.streams,
             events := s.events ++ [.updated streamId mergedText "streaming" now] }

/-- Loop body of `_applyPendingDeltas`.  `fuel` bounds the number of loop
iterations; every iteration deletes one buffered entry, so the buffer size
at entry (supplied by `applyPendingDeltas` below) makes the bounded loop
equal to the unbounded `while` of the source. -/
def applyPendingDeltasAux (now : ℕ) (streamId : Option String) :
    ℕ → ProcState → ProcState
  | 0, s => s
  | fuel + 1, s =>
    match listGet ((s.nextExpectedSeq : ℚ)) s.pendingDeltas with
    | none => s
    | some content =>
      let s1 := { s with pendingDeltas := listErase ((s.nextExpectedSeq : ℚ)) s.pendingDeltas }
      let s2 := appendStreamContent now streamId content s1
      let s3 := { s2 with nextExpectedSeq := s2.nextExpectedSeq + 1 }
      applyPendingDeltasAux now streamId fuel s3

/-- `_applyPendingDeltas`: greedily drain buffered deltas in sequence order. -/
def applyPendingDeltas (now : ℕ) (streamId : Option String) (s : ProcState) : ProcState :=
  applyPendingDeltasAux now streamId s.pendingDeltas.length s

/-- `_processDeltaSequence`. -/
def processDeltaSequence (now : ℕ) (seq : ℚ) (content : String) (s : ProcState) : ProcState :=
  let streamId := s.activeStreamId
  if seq = (s.nextExpectedSeq : ℚ) then
    let s1 := appendStreamContent now streamId content s
    let s2 := { s1 with nextExpectedSeq := s1.nextExpectedSeq + 1 }
    applyPendingDeltas now streamId s2
  else if (s.nextExpectedSeq : ℚ) < seq then
    { s with pendingDeltas := listSet seq content s.pendingDeltas }
  else s

/-- `_isValidSequenceNumber`: `typeof seq === 'number' && seq >= 1`.
(`STREAM_INITIAL_SEQUENCE` is imported from the missing constants module;
its value 1 is modelled from the spec: sequence numbers start at 1.)
Note the implementation, despite its doc comment, does not require the
number to be an integer. -/
def isValidSequenceNumber : Option SeqVal → Bool
  | some (.num q) => 1 ≤ q
  | _ => false

/-- `_processDelta`. -/
def processDelta (now : ℕ) (raw : RawFrame) (s : ProcState) : ProcState :=
  let content := raw.v.getD ""
  match raw.seq with
  | some (.num q) =>
    if 1 ≤ q then
      let s1 := if s.activeStreamId.isNone then initializeSyntheticStream now raw s else s
      let s2 := if s1.nextExpectedSeq = 1 then handleFirstDelta now s1 else s1
      processDeltaSequence now q content s2
    else s
  | _ => s

/-- `_cleanupStream`. -/
def cleanupStream (messageId : Option String) (s : ProcState) : ProcState :=
  let s1 := { s with streams := listErase messageId s.streams }
  if s1.activeStreamId = messageId then resetStreamState none s1 else s1

/-- `_processStreamEnd`. -/
def processStreamEnd (now : ℕ) (raw : RawFrame) (s : ProcState) : ProcState :=
  match getMessageIdFromRaw raw with
  | none => emitOne (.errorEv "stream_end received without id") s
  | some messageId =>
    let s1 := if s.isTypingActive ∨ s.isThinkingActive then stopTyping s else s
    let finalText := match listGet (some messageId) s1.streams with
      | some d => d.text
      | none => ""
    let s2 := { s1 with events := s1.events ++ [.updated (some messageId) finalText "delivered" now] }
    let s3 := cleanupStream (some messageId) s2
    rememberIncomingText finalText s3

/-- `_handleTypingIndicator`. -/
def handleTypingIndicator (cfg : MPConfig) (raw : RawFrame) (s : ProcState) : ProcState :=
  if ¬ cfg.enableTypingIndicator then s
  else if s.activeStreamId.isSome ∧ 1 < s.nextExpectedSeq then s
  else
    let s1 := { s with typingTimerOn := false }
    let isAiAssistant := raw.fromField = some "ai-assistant"
    let s2 :=
      if isAiAssistant then
        { s1 with isThinkingActive := true, events := s1.events ++ [MPEvent.thinkingStartEv] }
      else
        { s1 with isTypingActive := true, events := s1.events ++ [MPEvent.typingStartEv] }
    { s2 with typingTimerOn := true }

/-- `process`: route a raw frame by its extracted type. -/
def processFrame (cfg : MPConfig) (now : ℕ) (freshId : String)
    (raw : RawFrame) (s : ProcState) : ProcState :=
  let messageType := extractMessageType raw
  if messageType = "message" then processUserMessage now freshId raw s
  else if messageType = "stream_start" then processStreamStart now raw s
  else if messageType = "delta" then processDelta now raw s
  else if messageType = "stream_end" then processStreamEnd now raw s
  else if messageType = "typing_start" then handleTypingIndicator cfg raw s
  else emitOne (.unknownEv raw) s

/-! Frame shapes used by the wire protocol (§6 of the spec). -/

def streamStartFrame (i : String) : RawFrame :=
  { type := some "stream_start", id := some i }

def deltaFrame (q : ℚ) (v : String) : RawFrame :=
  { v := some v, seq := some (.num q) }

def streamEndFrame (i : String) : RawFrame :=
  { type := some "stream_end", id := some i }

def typingStartFrame (f : Option String) : RawFrame :=
  { type := some "typing_start", fromField := f }

def messageFrame (t : String) : RawFrame :=
  { type := some "message", message := some { text := some t } }

/-- Number of `message:processed` emissions in an event list. -/
def countProcessed (evs : List MPEvent) : ℕ :=
  (evs.filter fun e => match e with | .processed _ => true | _ => false).length

/-- Feed a list of frames to a fresh processor. -/
def runFrames (cfg : MPConfig) (now : ℕ) (freshId : String) (l : List RawFrame) : ProcState :=
  l.foldl (fun s r => processFrame cfg now freshId r s) mpInit

/-! Association-list laws. -/

theorem listGet_listErase_self {κ α : Type} [DecidableEq κ] (k : κ) (l : List (κ × α)) :
    listGet k (listErase k l) = none := by
  induction l with
  | nil => rfl
  | cons p t ih => by_cases hp : p.1 = k <;> simp [listErase, listGet, hp, ih]

theorem listGet_listErase_ne {κ α : Type} [DecidableEq κ] {k k' : κ} (l : List (κ × α))
    (h : k' ≠ k) : listGet k' (listErase k l) = listGet k' l := by
  induction l with
  | nil => rfl
  | cons p t ih =>
    by_cases hp : p.1 = k
    · have hne : p.1 ≠ k' := fun hh => h (hp ▸ hh.symm ▸ rfl)
      simp [listErase, listGet, hp, hne, ih, h, Ne.symm h]
    · by_cases hk : p.1 = k' <;> simp [listErase, listGet, hp, hk, ih, h, Ne.symm h]

theorem listErase_of_listGet_none {κ α : Type} [DecidableEq κ] {k : κ} {l : List (κ × α)}
    (h : listGet k l = none) : listErase k l = l := by
  induction l with
  | nil => rfl
  | cons p t ih =>
    by_cases hp : p.1 = k
    · simp [listGet, hp] at h
    · simp only [listGet, if_neg hp] at h
      simp [listErase, hp, ih h]

theorem listGet_listSet_self {κ α : Type} [DecidableEq κ] (k : κ) (v : α) (l : List (κ × α)) :
    listGet k (listSet k v l) = some v := by
  simp [listSet, listGet]

theorem listGet_listSet_ne {κ α : Type} [DecidableEq κ] {k k' : κ} (v : α) (l : List (κ × α))
    (h : k' ≠ k) : listGet k' (listSet k v l) = listGet k' l := by
  have : ¬ (k = k') := fun hh => h hh.symm
  simp [listSet, listGet, this, listGet_listErase_ne l h]

/-! Routing lemmas for `processFrame`. -/

theorem processFrame_eq_processUserMessage {raw : RawFrame} (cfg : MPConfig) (now : ℕ)
    (freshId : String) (s : ProcState) (h : extractMessageType raw = "message") :
    processFrame cfg now freshId raw s = processUserMessage now freshId raw s := by
  simp [processFrame, h]

theorem processFrame_eq_processStreamStart {raw : RawFrame} (cfg : MPConfig) (now : ℕ)
    (freshId : String) (s : ProcState) (h : extractMessageType raw = "stream_start") :
    processFrame cfg now freshId raw s = processStreamStart now raw s := by
  simp [processFrame, h]

theorem processFrame_eq_processDelta {raw : RawFrame} (cfg : MPConfig) (now : ℕ)
    (freshId : String) (s : ProcState) (h : extractMessageType raw = "delta") :
    processFrame cfg now freshId raw s = processDelta now raw s := by
  simp [processFrame, h]

theorem processFrame_eq_processStreamEnd {raw : RawFrame} (cfg : MPConfig) (now : ℕ)
    (freshId : String) (s : ProcState) (h : extractMessageType raw = "stream_end") :
    processFrame cfg now freshId raw s = processStreamEnd now raw s := by
  simp [processFrame, h]

theorem processFrame_eq_handleTypingIndicator {raw : RawFrame} (cfg : MPConfig) (now : ℕ)
    (freshId : String) (s : ProcState) (h : extractMessageType raw = "typing_start") :
    processFrame cfg now freshId raw s = handleTypingIndicator cfg raw s := by
  simp [processFrame, h]

theorem extractMessageType_deltaFrame (q : ℚ) (v : String) :
    extractMessageType (deltaFrame q v) = "delta" := rfl

theorem extractMessageType_streamEndFrame (i : String) :
    extractMessageType (streamEndFrame i) = "stream_end" := rfl

theorem countProcessed_append (a b : List MPEvent) :
    countProcessed (a ++ b) = countProcessed a + countProcessed b := by
  simp [countProcessed, List.filter_append]

theorem countProcessed_stopTyping (s : ProcState) :
    countProcessed (stopTyping s).events = countProcessed s.events := by
  by_cases h1 : s.isTypingActive <;> by_cases h2 : s.isThinkingActive <;>
    simp [stopTyping, h1, h2, countProcessed_append, countProcessed]

theorem countProcessed_singleton (m : Msg) :
    countProcessed [MPEvent.processed m] = 1 := rfl

theorem recentIncomingTexts_stopTyping (s : ProcState) :
    (stopTyping s).recentIncomingTexts = s.recentIncomingTexts := rfl

end MP

namespace WS

/-! Shallow embedding of `WebSocketManager` (`src/src/core/WebSocketManager.js`),
restricted to the disconnect/reconnect logic the claims are about.  The
computed reconnect delay feeds a timer whose expiry is a separate transition
not modelled here; `retryStrategy.next()`'s side effect on the strategy's
attempt counter is kept. -/

inductive Status : Type
  | disconnected | connecting | connected | reconnecting | error
deriving DecidableEq

inductive WSEvent : Type
  | statusChanged : Status → WSEvent
  | disconnectedEv : WSEvent
deriving DecidableEq

structure Config where
  autoReconnect : Bool
  maxReconnectAttempts : ℕ
  hasRetryStrategy : Bool
deriving DecidableEq

structure State where
  status : Status
  isRegistered : Bool
  reconnectAttempts : ℕ
  pingTimerOn : Bool
  reconnectTimerOn : Bool
  retryAttempts : ℕ
  events : List WSEvent
deriving DecidableEq

/-- `_scheduleReconnect`. -/
def scheduleReconnect (cfg : Config) (s : State) : State :=
  let s1 := { s with status := Status.reconnecting,
                     events := s.events ++ [WSEvent.statusChanged Status.reconnecting] }
  let s2 := if cfg.hasRetryStrategy then { s1 with retryAttempts := s1.retryAttempts + 1 } else s1
  { s2 with reconnectTimerOn := true }

/-- `_handleDisconnect`. -/
def handleDisconnect (cfg : Config) (s : State) : State :=
  let wasConnected := s.status = Status.connected
  let s1 := { s with status := Status.disconnected, isRegistered := false, pingTimerOn := false,
                     events := s.events ++ [WSEvent.statusChanged Status.disconnected,
                                            WSEvent.disconnectedEv] }
  if wasConnected ∧ cfg.autoReconnect ∧ s.reconnectAttempts < cfg.maxReconnectAttempts
  then scheduleReconnect cfg s1
  else s1

end WS

namespace RS

/-! Shallow embedding of `RetryStrategy` (exponential backoff with jitter).
JS numbers are `ℚ`; `rand` stands for the `Math.random()` draw in `[0, 1)`;
`Math.floor` is `Int.floor`. -/

structure Config where
  baseDelay : ℚ
  maxDelay : ℚ
  factor : ℚ
  jitter : Bool
  maxJitter : ℚ
deriving DecidableEq

/-- The constructor's default configuration. -/
def defaults : Config :=
  { baseDelay := 1000, maxDelay := 30000, factor := 2, jitter := true, maxJitter := 1000 }

/-- The exponential-and-capped part of `getDelay`
(`Math.min(baseDelay * factor ** n, maxDelay)`, before jitter and floor). -/
def rawDelay (cfg : Config) (attemptNumber : ℕ) : ℚ :=
  min (cfg.baseDelay * cfg.factor ^ attemptNumber) cfg.maxDelay

/-- `_addJitter`: `delay + Math.random() * Math.min(delay, maxJitter)`. -/
def addJitter (cfg : Config) (rand delay : ℚ) : ℚ :=
  delay + rand * min delay cfg.maxJitter

/-- `getDelay` at an explicit attempt number. -/
def getDelay (cfg : Config) (rand : ℚ) (attemptNumber : ℕ) : ℤ :=
  ⌊if cfg.jitter then addJitter cfg rand (rawDelay cfg attemptNumber)
    else rawDelay cfg attemptNumber⌋

/-- `next()`: returns the current delay and increments the attempt counter. -/
def next (cfg : Config) (rand : ℚ) (attempts : ℕ) : ℤ × ℕ :=
  (getDelay cfg rand attempts, attempts + 1)

/-- `reset()`: the attempt counter afterwards. -/
def reset : ℕ := 0

/-- `getAttempts()`. -/
def getAttempts (attempts : ℕ) : ℕ := attempts

end RS

namespace SM

/-! Shallow embedding of `SessionManager` (`src/src/core/SessionManager.js`
for the identity logic of C4; the two `part_000` variants share the
`appendToConversation` body verbatim).  `Date.now()` and the
`Math.floor(Math.random() * Date.now())` draw of `generateSessionId` are
explicit parameters (`now`, `rand`); `window.location.hostname` is the
`hostname` parameter. -/

/-- JS `\d`: the ASCII digits `0`–`9`. -/
def isDigitChar (c : Char) : Bool :=
  48 ≤ c.toNat ∧ c.toNat ≤ 57

/-- JS regex line terminators, which `.` does not match:
LF, CR, U+2028, U+2029. -/
def isLineTerm (c : Char) : Bool :=
  c.toNat = 10 ∨ c.toNat = 13 ∨ c.toNat = 0x2028 ∨ c.toNat = 0x2029

/-- The decimal digit characters (the base-10 rendering used by JS
template-string interpolation of a nonnegative integer). -/
def digitChar : ℕ → Char
  | 0 => '0' | 1 => '1' | 2 => '2' | 3 => '3' | 4 => '4'
  | 5 => '5' | 6 => '6' | 7 => '7' | 8 => '8' | _ => '9'

/-- Base-10 digit list of `n`, most significant first; `fuel` bounds the
digit count (`n + 1` always suffices). -/
def natDigitsAux : ℕ → ℕ → List Char
  | 0, _ => []
  | fuel + 1, n =>
    if n < 10 then [digitChar n]
    else natDigitsAux fuel (n / 10) ++ [digitChar (n % 10)]

/-- The decimal string of a natural number, as `${n}` renders it. -/
def toDecimal (n : ℕ) : String :=
  ⟨natDigitsAux (n + 1) n⟩

/-- `true` iff `s.trim() === ''` in JS: every character is ECMAScript
whitespace or a line terminator. -/
def trimIsEmpty (s : String) : Bool :=
  s.data.all fun c =>
    c.toNat = 9 ∨ c.toNat = 10 ∨ c.toNat = 11 ∨ c.toNat = 12 ∨ c.toNat = 13
      ∨ c.toNat = 32 ∨ c.toNat = 0xA0 ∨ c.toNat = 0x1680
      ∨ (0x2000 ≤ c.toNat ∧ c.toNat ≤ 0x200A)
      ∨ c.toNat = 0x2028 ∨ c.toNat = 0x2029 ∨ c.toNat = 0x202F
      ∨ c.toNat = 0x205F ∨ c.toNat = 0x3000 ∨ c.toNat = 0xFEFF

/-- The `validClientId` resolution of `generateSessionId`: fall back to the
hostname when `clientId` is null/undefined or trims to the empty string. -/
def resolveClientId (clientId : Option String) (hostname : String) : String :=
  match clientId with
  | none => hostname
  | some c => if trimIsEmpty c then hostname else c

/-- `generateSessionId`: `` `${randomId}@${validClientId}` ``. -/
def generateSessionId (rand : ℕ) (clientId : Option String) (hostname : String) : String :=
  toDecimal rand ++ "@" ++ resolveClientId clientId hostname

/-- Continuation of the `^\d+@.+$` matcher: consume further digits until the
literal `@`, then return the remainder. -/
def digitsThenAtCont : List Char → Option (List Char)
  | [] => none
  | c :: t => if isDigitChar c then digitsThenAtCont t else if c = '@' then some t else none

/-- `^\d+@` matcher entry: the first character must be a digit. -/
def digitsThenAt : List Char → Option (List Char)
  | [] => none
  | c :: t => if isDigitChar c then digitsThenAtCont t else none

/-- `_isValidSessionIdFormat`: semantics of `/^\d+@.+$/.test(sessionId)`.
`\d+` must end at the first non-digit, which must be `@` (backtracking
cannot help, since `@` is not a digit); `.` matches any character except a
line terminator, and `$` (no `m` flag) anchors at the end of the string. -/
def isValidSessionIdFormat (sessionId : String) : Bool :=
  match digitsThenAt sessionId.data with
  | some [] => false
  | some rest => rest.all fun c => ¬ isLineTerm c
  | none => false

/-- A stored/in-memory session object.  `conversation` is kept generic in
the message type. -/
structure SessionRec (α : Type) where
  id : String
  createdAt : ℕ
  lastActivity : ℕ
  conversation : List α
deriving DecidableEq

/-- The configuration fields `getOrCreate` reads.  `contactTimeout` is in
milliseconds in this variant. -/
structure SMConfig where
  contactTimeout : ℤ
  clientId : Option String
deriving DecidableEq

/-- `_isSessionValid`: the stored object must have a truthy `id` and
`lastActivity`, a format-valid id, and `now - lastActivity <
contactTimeout`. -/
def isSessionValid {α : Type} (now : ℕ) (contactTimeout : ℤ) (s : SessionRec α) : Bool :=
  s.id ≠ "" ∧ s.lastActivity ≠ 0 ∧ isValidSessionIdFormat s.id
    ∧ (now : ℤ) - (s.lastActivity : ℤ) < contactTimeout

/-- `_createNewSession` (the `src/src/core` variant: the id is always
freshly generated). -/
def createNewSession {α : Type} (now rand : ℕ) (cfg : SMConfig) (hostname : String) :
    String × SessionRec α :=
  let i := generateSessionId rand cfg.clientId hostname
  (i, { id := i, createdAt := now, lastActivity := now, conversation := [] })

/-- The storage-load path of `getOrCreate` (lines 38–46). -/
def getOrCreateFromStore {α : Type} (now rand : ℕ) (cfg : SMConfig) (hostname : String)
    (stored : Option (SessionRec α)) : String × SessionRec α :=
  match stored with
  | some st =>
    if isSessionValid now cfg.contactTimeout st
    then (st.id, { st with lastActivity := now })
    else createNewSession now rand cfg hostname
  | none => createNewSession now rand cfg hostname

/-- `getOrCreate`: prefer the in-memory session (when its id is truthy),
else the stored one (when valid), else create a fresh session. -/
def getOrCreate {α : Type} (now rand : ℕ) (cfg : SMConfig) (hostname : String)
    (inMem stored : Option (SessionRec α)) : String × SessionRec α :=
  match inMem with
  | some sess =>
    if sess.id ≠ "" then (sess.id, sess)
    else getOrCreateFromStore now rand cfg hostname stored
  | none => getOrCreateFromStore now rand cfg hostname stored

/-- `appendToConversation` (identical in both `part_000` variants).
`limit` is a JS number; `list.splice(0, list.length - limit)` truncates its
argument toward zero (`ToIntegerOrInfinity`), hence the `Int.toNat ∘
Int.floor` for the positive case. -/
def appendToConversation {α : Type} (now : ℕ) (message : α) (limit : Option ℚ)
    (inMem : Option (SessionRec α)) : Option (SessionRec α) :=
  match inMem with
  | none => none
  | some sess =>
    let list := sess.conversation ++ [message]
    let list :=
      match limit with
      | some l =>
        if l ≠ 0 ∧ 0 < l ∧ l < (list.length : ℚ)
        then list.drop (Int.toNat ⌊(list.length : ℚ) - l⌋)
        else list
      | none => list
    some { sess with conversation := list, lastActivity := now }

theorem isDigitChar_digitChar (d : ℕ) : isDigitChar (digitChar d) = true := by
  unfold digitChar
  split <;> decide

theorem natDigitsAux_all (fuel n : ℕ) :
    (natDigitsAux fuel n).all isDigitChar = true := by
  induction fuel generalizing n with
  | zero => rfl
  | succ f ih =>
    by_cases h : n < 10 <;> simp [natDigitsAux, h, isDigitChar_digitChar, ih]

theorem natDigitsAux_ne_nil (fuel n : ℕ) : natDigitsAux (fuel + 1) n ≠ [] := by
  by_cases h : n < 10 <;> simp [natDigitsAux, h]

theorem digitsThenAtCont_digits_append (ds rest : List Char)
    (hd : ds.all isDigitChar = true) :
    digitsThenAtCont (ds ++ '@' :: rest) = some rest := by
  induction ds with
  | nil => simp [digitsThenAtCont, show isDigitChar '@' = false from by decide]
  | cons c t ih =>
    simp only [List.all_cons, Bool.and_eq_true] at hd
    simp [digitsThenAtCont, hd.1, ih hd.2]

theorem isValidSessionIdFormat_generateSessionId (rand : ℕ) (clientId : Option String)
    (hostname : String)
    (hne : resolveClientId clientId hostname ≠ "")
    (hlt : (resolveClientId clientId hostname).data.all (fun c => ¬ isLineTerm c) = true) :
    isValidSessionIdFormat (generateSessionId rand clientId hostname) = true := by
  have hdata : (generateSessionId rand clientId hostname).data
      = natDigitsAux (rand + 1) rand ++ '@' :: (resolveClientId clientId hostname).data := by
    simp [generateSessionId, toDecimal, String.data_append]
  obtain ⟨d, ds, hds⟩ : ∃ d ds, natDigitsAux (rand + 1) rand = d :: ds := by
    cases h : natDigitsAux (rand + 1) rand with
    | nil => exact absurd h (natDigitsAux_ne_nil rand rand)
    | cons d ds => exact ⟨d, ds, rfl⟩
  have hall := natDigitsAux_all (rand + 1) rand
  rw [hds] at hall
  simp only [List.all_cons, Bool.and_eq_true] at hall
  obtain ⟨c0, r0, hh⟩ : ∃ c0 r0, (resolveClientId clientId hostname).data = c0 :: r0 := by
    cases hh : (resolveClientId clientId hostname).data with
    | nil =>
      exfalso
      apply hne
      cases hcs : resolveClientId clientId hostname with
      | mk l => rw [hcs] at hh; simp at hh; simp [hh]
    | cons c0 r0 => exact ⟨c0, r0, rfl⟩
  rw [hh] at hlt hdata
  rw [isValidSessionIdFormat, hdata, hds]
  simp only [List.cons_append]
  rw [digitsThenAt]
  simp only [hall.1, if_true]
  rw [digitsThenAtCont_digits_append ds (c0 :: r0) hall.2]
  simpa using hlt

end SM

namespace ST

/-! Shallow embedding of `StorageManager` (quota recovery).  The backing
`localStorage` is a key-ordered association list with unique keys;
`_getAllKeys` iterates it in that order.  `canWrite i` says whether the
`i`-th `setItem` attempt inside one `set()` call succeeds; `canWrite i =
false` models a `QuotaExceededError` (the only error the catch treats
specially). -/

/-- The parsed view of one stored JSON blob: the envelope fields
`_version` / `_timestamp` / `_data`; a foreign or corrupt entry parses to
an object without them (`JSON.parse(... || '{}')`). -/
structure StoredVal where
  versionF : Option String := none
  timestampF : Option ℕ := none
  dataF : Option String := none
deriving DecidableEq

/-- `this.prefix`. -/
def keyNS : String := "weni:webchat:"

/-- `key.startsWith(this.prefix)`, spelt over the character lists. -/
def startsWithNS (k : String) : Bool :=
  keyNS.data.isPrefixOf k.data

/-- `_getFullKey`. -/
def getFullKey (key : String) : String :=
  if startsWithNS key then key else keyNS ++ key

/-- `item.data._timestamp || 0`. -/
def tsOf (p : String × StoredVal) : ℕ :=
  p.2.timestampF.getD 0

/-- One insertion step of the stable ascending-timestamp sort (the JS
`items.sort((a, b) => a.ts - b.ts)`; `Array.prototype.sort` is stable, and
so is this insertion sort: the inserted element comes earlier in the
original list than everything already sorted, and stops before the first
element of equal or larger timestamp). -/
def insertByTs (p : String × StoredVal) :
    List (String × StoredVal) → List (String × StoredVal)
  | [] => [p]
  | q :: t => if tsOf q < tsOf p then q :: insertByTs p t else p :: q :: t

/-- Stable sort by ascending envelope timestamp. -/
def sortByTs : List (String × StoredVal) → List (String × StoredVal)
  | [] => []
  | p :: t => insertByTs p (sortByTs t)

/-- The `items` array of `_handleQuotaExceeded`: the prefixed entries. -/
def prefixedItems (st : List (String × StoredVal)) : List (String × StoredVal) :=
  st.filter fun p => startsWithNS p.1

/-- `Math.ceil(items.length * 0.25)` (exact for any realistic array
length, since `n * 0.25` is an exact float there). -/
def removeCount (st : List (String × StoredVal)) : ℕ :=
  ((prefixedItems st).length + 3) / 4

/-- Keys of the first `toRemove` entries of the timestamp-sorted items. -/
def victimKeys (st : List (String × StoredVal)) : List String :=
  ((sortByTs (prefixedItems st)).take (removeCount st)).map Prod.fst

/-- `_handleQuotaExceeded`: remove the victim keys. -/
def handleQuotaExceeded (st : List (String × StoredVal)) : List (String × StoredVal) :=
  st.filter fun p => ¬ (victimKeys st).contains p.1

/-- `storage.setItem`: overwrite in place, else append. -/
def setItemStore (k : String) (v : StoredVal) :
    List (String × StoredVal) → List (String × StoredVal)
  | [] => [(k, v)]
  | p :: t => if p.1 = k then (k, v) :: t else p :: setItemStore k v t

/-- `this.version`. -/
def currentVersion : String := "1.0.0"

/-- `set(key, value)`: wrap in the envelope and write; on quota exhaustion
evict old data — and nothing more (the catch block does not retry). -/
def set (canWrite : ℕ → Bool) (now : ℕ) (key value : String)
    (st : List (String × StoredVal)) : List (String × StoredVal) :=
  let fullKey := getFullKey key
  if canWrite 0 then
    setItemStore fullKey
      { versionF := some currentVersion, timestampF := some now, dataF := some value } st
  else
    handleQuotaExceeded st

/-- Modelled from the spec: the claim's version of `set`, in which quota
exhaustion evicts the oldest 25% of prefixed entries *and then retries the
failed write once*.  It exists only to be compared against the source's
`set` above. -/
def setWithRetrySpec (canWrite : ℕ → Bool) (now : ℕ) (key value : String)
    (st : List (String × StoredVal)) : List (String × StoredVal) :=
  let fullKey := getFullKey key
  let envelope : StoredVal :=
    { versionF := some currentVersion, timestampF := some now, dataF := some value }
  if canWrite 0 then setItemStore fullKey envelope st
  else
    let st1 := handleQuotaExceeded st
    if canWrite 1 then setItemStore fullKey envelope st1 else st1

theorem perm_insertByTs (p : String × StoredVal) (l : List (String × StoredVal)) :
    List.Perm (insertByTs p l) (p :: l) := by
  induction l with
  | nil => simp [insertByTs]
  | cons q t ih =>
    by_cases h : tsOf q < tsOf p
    · simp only [insertByTs, if_pos h]
      exact (ih.cons q).trans (List.Perm.swap p q t)
    · simp [insertByTs, h]

theorem perm_sortByTs (l : List (String × StoredVal)) : List.Perm (sortByTs l) l := by
  induction l with
  | nil => exact List.Perm.refl _
  | cons p t ih => exact (perm_insertByTs p (sortByTs t)).trans (ih.cons p)

theorem sorted_insertByTs {p : String × StoredVal} {l : List (String × StoredVal)}
    (h : List.Pairwise (fun a b => tsOf a ≤ tsOf b) l) :
    List.Pairwise (fun a b => tsOf a ≤ tsOf b) (insertByTs p l) := by
  induction l with
  | nil => simp [insertByTs]
  | cons q t ih =>
    rcases List.pairwise_cons.mp h with ⟨hq, ht⟩
    by_cases hlt : tsOf q < tsOf p
    · simp only [insertByTs, if_pos hlt]
      refine List.pairwise_cons.mpr ⟨?_, ih ht⟩
      intro b hb
      rcases List.mem_cons.mp ((perm_insertByTs p t).mem_iff.mp hb) with rfl | hbt
      · exact hlt.le
      · exact hq b hbt
    · simp only [insertByTs, if_neg hlt]
      push_neg at hlt
      refine List.pairwise_cons.mpr ⟨?_, h⟩
      intro b hb
      rcases List.mem_cons.mp hb with rfl | hbt
      · exact hlt
      · exact le_trans hlt (hq b hbt)

theorem sorted_sortByTs (l : List (String × StoredVal)) :
    List.Pairwise (fun a b => tsOf a ≤ tsOf b) (sortByTs l) := by
  induction l with
  | nil => simp [sortByTs]
  | cons p t ih => exact sorted_insertByTs ih

end ST

/-- C4 counterexample: the claim says `getOrCreate()` returns the loaded
session's id whenever the stored id matches `^\d+@.+$`.  But
`_isSessionValid` additionally requires `now - lastActivity <
contactTimeout`: a stored session with the regex-valid id `"1@h"` whose
`lastActivity` is expired is discarded, and a fresh id (`"2@h"` for random
draw 2) is generated instead. -/
theorem sm_getOrCreate_expired_regex_id_cex :
    SM.isValidSessionIdFormat "1@h" = true
    ∧ (SM.getOrCreate (α := Unit) 5000 2 { contactTimeout := 1000, clientId := some "h" }
        "host" none
        (some { id := "1@h", createdAt := 0, lastActivity := 1, conversation := [] })).1
      = "2@h"
    ∧ ("2@h" : String) ≠ "1@h" := by
  refine ⟨by decide, by decide, by decide⟩

/-- C4 amended: with no in-memory session, `getOrCreate()` returns the
stored session's id whenever the stored session passes the full validity
check (truthy id and lastActivity, id matching `^\d+@.+$`, and
`now − lastActivity < contactTimeout`); otherwise — and likewise when
nothing is stored — a fresh id is generated that itself matches
`^\d+@.+$`, provided the resolved client host (clientId, or the hostname
fallback) is nonempty and free of line terminators. -/
theorem sm_getOrCreate_amended {α : Type} (now rand : ℕ) (cfg : SM.SMConfig)
    (hostname : String) (stored : SM.SessionRec α)
    (hne : SM.resolveClientId cfg.clientId hostname ≠ "")
    (hlt : (SM.resolveClientId cfg.clientId hostname).data.all
        (fun c => ¬ SM.isLineTerm c) = true) :
    (SM.isSessionValid now cfg.contactTimeout stored = true →
      (SM.getOrCreate now rand cfg hostname none (some stored)).1 = stored.id)
    ∧ (SM.isSessionValid now cfg.contactTimeout stored = false →
      SM.isValidSessionIdFormat
        (SM.getOrCreate now rand cfg hostname none (some stored)).1 = true)
    ∧ SM.isValidSessionIdFormat
        (SM.getOrCreate (α := α) now rand cfg hostname none none).1 = true := by
  have hgen := SM.isValidSessionIdFormat_generateSessionId rand cfg.clientId hostname hne hlt
  refine ⟨fun hv => ?_, fun hv => ?_, ?_⟩
  · simp [SM.getOrCreate, SM.getOrCreateFromStore, hv]
  · simp [SM.getOrCreate, SM.getOrCreateFromStore, hv, SM.createNewSession, hgen]
  · simp [SM.getOrCreate, SM.getOrCreateFromStore, SM.createNewSession, hgen]

theorem sm_getOrCreate_amended_witness :
    (SM.getOrCreate (α := Unit) 100 2 { contactTimeout := 1000, clientId := some "h" }
        "host" none
        (some { id := "1@h", createdAt := 0, lastActivity := 50, conversation := [] })).1
      = "1@h"
    ∧ SM.isValidSessionIdFormat
        (SM.getOrCreate (α := Unit) 5000 2 { contactTimeout := 1000, clientId := some "h" }
          "host" none
          (some { id := "1@h", createdAt := 0, lastActivity := 1, conversation := [] })).1
      = true := by
  have h1 := sm_getOrCreate_amended (α := Unit) 100 2
    { contactTimeout := 1000, clientId := some "h" } "host"
    { id := "1@h", createdAt := 0, lastActivity := 50, conversation := [] }
    (by decide) (by decide)
  have h2 := sm_getOrCreate_amended (α := Unit) 5000 2
    { contactTimeout := 1000, clientId := some "h" } "host"
    { id := "1@h", createdAt := 0, lastActivity := 1, conversation := [] }
    (by decide) (by decide)
  exact ⟨h1.1 (by decide), h2.2.1 (by decide)⟩

/-- C10 counterexample: the claim promises at most `limit` messages for
*every positive numeric* limit.  With the fractional limit `5/2` and two
existing messages, the appended list has length 3 (`> 5/2`), but
`splice(0, 3 − 5/2)` truncates its delete count `0.5` to `0`, so all three
messages survive and the bound fails. -/
theorem sm_append_fractional_limit_cex :
    mkRat 5 2 = (5 : ℚ) / 2
    ∧ (SM.appendToConversation 0 "c" (some ((5 : ℚ) / 2))
        (some { id := "1@h", createdAt := 0, lastActivity := 1, conversation := ["a", "b"] })).map
        (fun s => s.conversation)
      = some ["a", "b", "c"]
    ∧ ¬ ((3 : ℚ) ≤ mkRat 5 2) := by
  refine ⟨by norm_num, ?_, by decide⟩
  simp only [SM.appendToConversation]
  norm_num

/-- C10 amended: for a live session and a *positive integer* limit `k`,
`appendToConversation` leaves the log equal to the last-`k` suffix of
`old ++ [m]`: at most `k` messages, ending in `m`, obtained by dropping
only the oldest surplus from the front; with no limit the log is exactly
`old ++ [m]`. -/
theorem sm_appendToConversation_amended {α : Type} (now : ℕ) (m : α)
    (sess : SM.SessionRec α) (k : ℕ) (hk : 1 ≤ k) :
    (∃ conv,
      SM.appendToConversation now m (some (k : ℚ)) (some sess)
        = some { sess with conversation := conv, lastActivity := now }
      ∧ conv = (sess.conversation ++ [m]).drop (sess.conversation.length + 1 - k)
      ∧ conv.length ≤ k
      ∧ conv.getLast? = some m
      ∧ conv.IsSuffix (sess.conversation ++ [m]))
    ∧ SM.appendToConversation now m none (some sess)
      = some { sess with conversation := sess.conversation ++ [m], lastActivity := now } := by
  constructor
  · refine ⟨(sess.conversation ++ [m]).drop (sess.conversation.length + 1 - k),
      ?_, rfl, ?_, ?_, ?_⟩
    · have hlen : (sess.conversation ++ [m]).length = sess.conversation.length + 1 := by
        rw [List.length_append, List.length_singleton]
      by_cases hkn : k ≤ sess.conversation.length
      · have hcond : (k : ℚ) ≠ 0 ∧ 0 < (k : ℚ)
            ∧ (k : ℚ) < (((sess.conversation ++ [m]).length : ℕ) : ℚ) := by
          refine ⟨by positivity, by positivity, ?_⟩
          rw [hlen]
          exact_mod_cast by omega
        have hfloor : Int.toNat ⌊(((sess.conversation ++ [m]).length : ℕ) : ℚ) - (k : ℚ)⌋
            = sess.conversation.length + 1 - k := by
          rw [hlen]
          have hc : ((sess.conversation.length + 1 : ℕ) : ℚ) - (k : ℚ)
              = ((sess.conversation.length + 1 - k : ℕ) : ℚ) := by
            rw [Nat.cast_sub (by omega)]
          rw [hc, Int.floor_natCast, Int.toNat_natCast]
        simp only [SM.appendToConversation]
        rw [if_pos hcond, hfloor]
      · have hcond : ¬ ((k : ℚ) ≠ 0 ∧ 0 < (k : ℚ)
            ∧ (k : ℚ) < (((sess.conversation ++ [m]).length : ℕ) : ℚ)) := by
          rw [hlen]
          push_neg
          intro _ _
          exact_mod_cast by omega
        have hdrop : sess.conversation.length + 1 - k = 0 := by omega
        simp only [SM.appendToConversation, hdrop, List.drop_zero]
        rw [if_neg hcond]
    · rw [List.length_drop, List.length_append]
      simp only [List.length_singleton]
      omega
    · rw [List.drop_append_of_le_length (by omega), List.getLast?_concat]
    · exact List.drop_suffix _ _
  · simp [SM.appendToConversation]

theorem sm_appendToConversation_amended_witness :
    SM.appendToConversation 9 "c" (some ((2 : ℕ) : ℚ))
        (some { id := "1@h", createdAt := 0, lastActivity := 1, conversation := ["a", "b"] })
      = some { id := "1@h", createdAt := 0, lastActivity := 9, conversation := ["b", "c"] }
    ∧ SM.appendToConversation 9 "c" none
        (some { id := "1@h", createdAt := 0, lastActivity := 1, conversation := ["a", "b"] })
      = some { id := "1@h", createdAt := 0, lastActivity := 9, conversation := ["a", "b", "c"] } := by
  have h := sm_appendToConversation_amended 9 "c"
    { id := "1@h", createdAt := 0, lastActivity := 1, conversation := ["a", "b"] } 2
    (by decide)
  obtain ⟨⟨conv, heq, hconv, _, _, _⟩, hnone⟩ := h
  constructor
  · rw [heq, hconv]; decide
  · rw [hnone]; decide

/-- C3 counterexample: a duplicate `message` frame is *not* suppressed "with no
state change" when a typing indicator is active — `_processUserMessage` calls
`_stopTyping` (emitting `typing:stop` and clearing the indicator flags and
timer) *before* the dedup check, so the state does change even though the
frame itself is dropped with no `message:processed` emission.  Here a
duplicate "Hello" arrives while the typing indicator is up: the result is the
old state with the indicator stopped and a `typing:stop` event appended,
which differs from the starting state. -/
theorem mp_duplicate_stops_indicator_cex :
    MP.processFrame {} 0 "f" (MP.messageFrame "Hello") { MP.mpInit with recentIncomingTexts := ["Hello"], isTypingActive := true, typingTimerOn := true }
      = { MP.mpInit with recentIncomingTexts := ["Hello"], events := [MP.MPEvent.typingStopEv] }
    ∧ MP.countProcessed [MP.MPEvent.typingStopEv] = 0
    ∧ ({ MP.mpInit with recentIncomingTexts := ["Hello"], events := [MP.MPEvent.typingStopEv] } : MP.ProcState)
      ≠ { MP.mpInit with recentIncomingTexts := ["Hello"], isTypingActive := true, typingTimerOn := true } := by
  refine ⟨by decide, by decide, by decide⟩

/-- C3 (amended): a `message` frame whose normalized text does not sit in the
dedup window produces exactly one `message:processed` emission; one whose text
sits in the window produces none, and the resulting state is exactly
`_stopTyping` of the old state when an indicator is active (the pre-dedup
indicator stop, which emits the stop event) and exactly the old state —
a complete no-op — otherwise.  Hence two frames with the same text, the
second processed while the text is in the window, yield exactly one
`message:processed` emission in total. -/
theorem mp_duplicate_text_single_emission (cfg : MP.MPConfig) (now now' : ℕ)
    (fid fid' t : String) (s₁ s₂ : MP.ProcState)
    (ht : t ≠ "")
    (h1 : s₁.recentIncomingTexts.contains t = false)
    (h2 : s₂.recentIncomingTexts.contains t = true) :
    MP.countProcessed (MP.processFrame cfg now fid (MP.messageFrame t) s₁).events
      = MP.countProcessed s₁.events + 1
    ∧ MP.countProcessed (MP.processFrame cfg now' fid' (MP.messageFrame t) s₂).events
      = MP.countProcessed s₂.events
    ∧ MP.processFrame cfg now' fid' (MP.messageFrame t) s₂
        = (if s₂.isTypingActive = true ∨ s₂.isThinkingActive = true
           then MP.stopTyping s₂ else s₂) := by
  have hroute : ∀ (n : ℕ) (f : String) (s : MP.ProcState),
      MP.processFrame cfg n f (MP.messageFrame t) s = MP.processUserMessage n f (MP.messageFrame t) s :=
    fun n f s => MP.processFrame_eq_processUserMessage cfg n f s (by rfl)
  have h1' : ¬ t ∈ s₁.recentIncomingTexts := by simpa using h1
  have h2' : t ∈ s₂.recentIncomingTexts := by simpa using h2
  refine ⟨?_, ?_, ?_⟩
  · rw [hroute]
    by_cases hi : s₁.isTypingActive = true ∨ s₁.isThinkingActive = true <;>
      simp only [MP.processUserMessage, MP.normalizeMessage, MP.messageFrame,
        MP.getMessageType, MP.validateMessage, MP.isDuplicateIncomingText,
        MP.jsOr, MP.strTruthy, hi] <;>
      simp [ht, h1', MP.recentIncomingTexts_stopTyping, MP.pushQueue, MP.emitOne,
        MP.countProcessed_append, MP.countProcessed_stopTyping, MP.countProcessed_singleton]
  · rw [hroute]
    by_cases hi : s₂.isTypingActive = true ∨ s₂.isThinkingActive = true <;>
      simp only [MP.processUserMessage, MP.normalizeMessage, MP.messageFrame,
        MP.getMessageType, MP.validateMessage, MP.isDuplicateIncomingText,
        MP.jsOr, MP.strTruthy, hi] <;>
      simp [ht, h2', MP.recentIncomingTexts_stopTyping, MP.countProcessed_stopTyping]
  · rw [hroute]
    by_cases hi : s₂.isTypingActive = true ∨ s₂.isThinkingActive = true <;>
      simp only [MP.processUserMessage, MP.normalizeMessage, MP.messageFrame,
        MP.getMessageType, MP.validateMessage, MP.isDuplicateIncomingText,
        MP.jsOr, MP.strTruthy, hi] <;>
      simp [ht, h2', hi, MP.recentIncomingTexts_stopTyping]

theorem mp_duplicate_text_single_emission_witness :
    MP.countProcessed (MP.processFrame {} 0 "f" (MP.messageFrame "Hello") MP.mpInit).events = 1
    ∧ MP.processFrame {} 0 "f" (MP.messageFrame "Hello")
        { MP.mpInit with recentIncomingTexts := ["Hello"] }
      = { MP.mpInit with recentIncomingTexts := ["Hello"] } := by
  have h := mp_duplicate_text_single_emission {} 0 0 "f" "f" "Hello" MP.mpInit
    { MP.mpInit with recentIncomingTexts := ["Hello"] } (by decide) (by decide) (by decide)
  exact ⟨by rw [h.1]; decide, by rw [h.2.2]; decide⟩

/-- C5: on transport close, the connection engine transitions to
`reconnecting` (arming the retry timer) exactly when the previous state was
`connected`, `autoReconnect` is enabled, and
`reconnectAttempts < maxReconnectAttempts`; in every other case it ends up
`disconnected`. -/
theorem ws_handleDisconnect_reconnect_iff (cfg : WS.Config) (s : WS.State) :
    (WS.handleDisconnect cfg s).status
      = (if s.status = WS.Status.connected ∧ cfg.autoReconnect = true
            ∧ s.reconnectAttempts < cfg.maxReconnectAttempts
         then WS.Status.reconnecting else WS.Status.disconnected)
    ∧ (WS.handleDisconnect cfg s).reconnectTimerOn
      = (if s.status = WS.Status.connected ∧ cfg.autoReconnect = true
            ∧ s.reconnectAttempts < cfg.maxReconnectAttempts
         then true else s.reconnectTimerOn)
    ∧ (WS.handleDisconnect cfg s).isRegistered = false := by
  by_cases h : s.status = WS.Status.connected ∧ cfg.autoReconnect = true
      ∧ s.reconnectAttempts < cfg.maxReconnectAttempts
  · by_cases hrs : cfg.hasRetryStrategy <;>
      simp [WS.handleDisconnect, WS.scheduleReconnect, h, h.1, h.2.1, h.2.2, hrs]
  · simp only [WS.handleDisconnect, WS.scheduleReconnect]
    rw [if_neg (by tauto), if_neg h, if_neg h]
    exact ⟨rfl, rfl, rfl⟩

/-- C2: the claim says a delta frame whose `seq` is a non-integer number
produces no observable state change, and `_isValidSequenceNumber`'s own doc
comment promises a positive-integer check; but the implementation only tests
`typeof seq === 'number' && seq >= 1`, so the non-integer `seq = 3/2` passes
validation: it is buffered into `pendingDeltas`, the deferred streaming
message is emitted, and `streamMessageEmitted` flips — an observable state
change, contradicting both the claim and the code's doc comment. -/
theorem mp_noninteger_seq_changes_state :
    mkRat 3 2 = (3 : ℚ) / 2
    ∧ (MP.runFrames {} 0 "f" [MP.streamStartFrame "A", MP.deltaFrame (mkRat 3 2) "x"]).pendingDeltas
      = [((mkRat 3 2), "x")]
    ∧ (MP.runFrames {} 0 "f" [MP.streamStartFrame "A",
        MP.deltaFrame (mkRat 3 2) "x"]).streamMessageEmitted = true
    ∧ MP.countProcessed (MP.runFrames {} 0 "f" [MP.streamStartFrame "A",
        MP.deltaFrame (mkRat 3 2) "x"]).events
      = MP.countProcessed (MP.runFrames {} 0 "f" [MP.streamStartFrame "A"]).events + 1
    ∧ MP.runFrames {} 0 "f" [MP.streamStartFrame "A", MP.deltaFrame (mkRat 3 2) "x"]
      ≠ MP.runFrames {} 0 "f" [MP.streamStartFrame "A"] := by
  refine ⟨by norm_num, by decide, by decide, by decide, by decide⟩

/-- C7: a `stream_end` for an id that was never started still emits exactly
one final `message:updated` observation for the prefixed id, carrying the
empty accumulated text and status `delivered`, and otherwise leaves the
state unchanged; a `stream_end` frame carrying no id emits an error event
instead. -/
theorem mp_streamEnd_unknown_id (cfg : MP.MPConfig) (now : ℕ) (fid z : String)
    (s : MP.ProcState)
    (hz : z ≠ "")
    (hns : MP.listGet (some ("msg_" ++ z)) s.streams = none)
    (hact : s.activeStreamId ≠ some ("msg_" ++ z))
    (ht : s.isTypingActive = false) (hth : s.isThinkingActive = false) :
    MP.processFrame cfg now fid (MP.streamEndFrame z) s
      = { s with events := s.events
            ++ [MP.MPEvent.updated (some ("msg_" ++ z)) "" "delivered" now] }
    ∧ MP.processFrame cfg now fid { type := some "stream_end" } s
      = { s with events := s.events
            ++ [MP.MPEvent.errorEv "stream_end received without id"] } := by
  constructor
  · rw [MP.processFrame_eq_processStreamEnd cfg now fid s (by rfl)]
    have hmid : MP.getMessageIdFromRaw (MP.streamEndFrame z) = some ("msg_" ++ z) := by
      simp [MP.getMessageIdFromRaw, MP.streamEndFrame, MP.jsOr, MP.strTruthy, hz]
    simp [MP.processStreamEnd, hmid, ht, hth, hns, MP.cleanupStream,
      MP.listErase_of_listGet_none hns, hact, MP.rememberIncomingText]
  · rw [MP.processFrame_eq_processStreamEnd cfg now fid s (by rfl)]
    simp [MP.processStreamEnd, MP.getMessageIdFromRaw, MP.jsOr, MP.strTruthy, MP.emitOne]

theorem mp_streamEnd_unknown_id_witness :
    MP.processFrame {} 5 "f" (MP.streamEndFrame "Z") MP.mpInit
      = { MP.mpInit with events := [MP.MPEvent.updated (some "msg_Z") "" "delivered" 5] }
    ∧ MP.processFrame {} 5 "f" { type := some "stream_end" } MP.mpInit
      = { MP.mpInit with events := [MP.MPEvent.errorEv "stream_end received without id"] } :=
  mp_streamEnd_unknown_id {} 5 "f" "Z" MP.mpInit (by decide) (by decide) (by decide)
    (by decide) (by decide)

/-- C8 counterexample: the claim says that after *any* delta of the active
stream has been received, `typing_start` raises no indicator.  But a delta
that is merely buffered (here `seq = 2` while `nextExpectedSeq = 1`) leaves
`nextExpectedSeq` at 1, so the suppression test
`activeStreamId && nextExpectedSeq > 1` does not fire and the subsequent
`typing_start` raises the typing indicator. -/
theorem mp_typing_after_buffered_delta_cex :
    (MP.runFrames {} 0 "f" [MP.streamStartFrame "A", MP.deltaFrame 2 "x"]).isTypingActive
        = false
    ∧ (MP.runFrames {} 0 "f" [MP.streamStartFrame "A", MP.deltaFrame 2 "x",
        MP.typingStartFrame none]).isTypingActive = true
    ∧ (MP.runFrames {} 0 "f" [MP.streamStartFrame "A", MP.deltaFrame 2 "x",
        MP.typingStartFrame none]).events
      = (MP.runFrames {} 0 "f" [MP.streamStartFrame "A", MP.deltaFrame 2 "x"]).events
        ++ [MP.MPEvent.typingStartEv] := by
  refine ⟨by decide, by decide, by decide⟩

/-- C8 amended: once a delta of the active stream has been *applied in
order* (`nextExpectedSeq > 1`), a `typing_start` frame is a complete no-op;
if a stream is active but no delta has been applied yet
(`nextExpectedSeq = 1`) and the indicator is enabled, the indicator is
raised normally (thinking for `from == "ai-assistant"`, typing otherwise). -/
theorem mp_typing_suppression_amended (cfg : MP.MPConfig) (now : ℕ) (fid : String)
    (f : Option String) (s : MP.ProcState)
    (hact : s.activeStreamId.isSome = true) :
    (1 < s.nextExpectedSeq →
      MP.processFrame cfg now fid (MP.typingStartFrame f) s = s)
    ∧ (cfg.enableTypingIndicator = true → s.nextExpectedSeq = 1 →
      MP.processFrame cfg now fid (MP.typingStartFrame f) s
        = if f = some "ai-assistant" then
            { s with typingTimerOn := true, isThinkingActive := true,
                     events := s.events ++ [MP.MPEvent.thinkingStartEv] }
          else
            { s with typingTimerOn := true, isTypingActive := true,
                     events := s.events ++ [MP.MPEvent.typingStartEv] }) := by
  rw [MP.processFrame_eq_handleTypingIndicator cfg now fid s (by rfl)]
  constructor
  · intro hseq
    by_cases he : cfg.enableTypingIndicator <;>
      simp [MP.handleTypingIndicator, he, hact, hseq]
  · intro he hseq
    simp only [MP.handleTypingIndicator, he, not_true_eq_false, if_false, hseq, hact]
    simp [MP.typingStartFrame]
    by_cases hf : f = some "ai-assistant" <;> simp [hf]

theorem mp_typing_suppression_amended_witness :
    (MP.processFrame {} 0 "f" (MP.typingStartFrame none)
        (MP.runFrames {} 0 "f" [MP.streamStartFrame "A", MP.deltaFrame 1 "Hi"])
      = MP.runFrames {} 0 "f" [MP.streamStartFrame "A", MP.deltaFrame 1 "Hi"])
    ∧ (MP.processFrame {} 0 "f" (MP.typingStartFrame none)
          (MP.runFrames {} 0 "f" [MP.streamStartFrame "B"])).isTypingActive = true :=
  ⟨(mp_typing_suppression_amended {} 0 "f" none _ (by decide)).1 (by decide),
   by
    have h := (mp_typing_suppression_amended {} 0 "f" none
      (MP.runFrames {} 0 "f" [MP.streamStartFrame "B"]) (by decide)).2 (by decide) (by decide)
    rw [h]
    decide⟩

/-- C6: `getDelay n` is `⌊min(baseDelay·factor^n, maxDelay)⌋` plus, when
jitter is enabled, a random amount lying in `[0, min(delay, maxJitter)]`;
with jitter factored out the delay is monotone in the attempt number and
capped by `maxDelay`; `next()` returns the current delay and increments the
attempt counter; `reset()` returns the counter to 0.  (Parameter sanity:
`baseDelay, maxDelay, maxJitter ≥ 0`, `factor ≥ 1`, `rand ∈ [0, 1)`.) -/
theorem rs_delay_spec (cfg : RS.Config) (rand : ℚ) (n : ℕ)
    (hb : 0 ≤ cfg.baseDelay) (hf : 1 ≤ cfg.factor) (hmd : 0 ≤ cfg.maxDelay)
    (hmj : 0 ≤ cfg.maxJitter) (hr0 : 0 ≤ rand) (hr1 : rand < 1) :
    (cfg.jitter = true →
      RS.getDelay cfg rand n
        = ⌊RS.rawDelay cfg n + rand * min (RS.rawDelay cfg n) cfg.maxJitter⌋
      ∧ 0 ≤ rand * min (RS.rawDelay cfg n) cfg.maxJitter
      ∧ rand * min (RS.rawDelay cfg n) cfg.maxJitter
          ≤ min (RS.rawDelay cfg n) cfg.maxJitter)
    ∧ (cfg.jitter = false → RS.getDelay cfg rand n = ⌊RS.rawDelay cfg n⌋)
    ∧ RS.rawDelay cfg n ≤ RS.rawDelay cfg (n + 1)
    ∧ (cfg.jitter = false → RS.getDelay cfg rand n ≤ RS.getDelay cfg rand (n + 1))
    ∧ (cfg.jitter = false → (RS.getDelay cfg rand n : ℚ) ≤ cfg.maxDelay)
    ∧ RS.next cfg rand n = (RS.getDelay cfg rand n, n + 1)
    ∧ RS.getAttempts RS.reset = 0 := by
  have hraw0 : 0 ≤ RS.rawDelay cfg n :=
    le_min (mul_nonneg hb (pow_nonneg (le_trans zero_le_one hf) n)) hmd
  have hmin0 : 0 ≤ min (RS.rawDelay cfg n) cfg.maxJitter := le_min hraw0 hmj
  have hmono : RS.rawDelay cfg n ≤ RS.rawDelay cfg (n + 1) := by
    refine min_le_min ?_ (le_refl _)
    exact mul_le_mul_of_nonneg_left (pow_le_pow_right₀ hf (Nat.le_succ n)) hb
  refine ⟨?_, ?_, hmono, ?_, ?_, rfl, rfl⟩
  · intro hj
    refine ⟨by simp [RS.getDelay, RS.addJitter, hj], mul_nonneg hr0 hmin0, ?_⟩
    exact mul_le_of_le_one_left hmin0 hr1.le
  · intro hj
    simp [RS.getDelay, hj]
  · intro hj
    simp only [RS.getDelay, hj, Bool.false_eq_true, if_false]
    exact Int.floor_le_floor hmono
  · intro hj
    simp only [RS.getDelay, hj, Bool.false_eq_true, if_false]
    exact le_trans (Int.floor_le _) (min_le_right _ _)

theorem rs_delay_spec_witness :
    (RS.defaults.jitter = true →
      RS.getDelay RS.defaults (mkRat 1 2) 0
        = ⌊RS.rawDelay RS.defaults 0 + (mkRat 1 2) * min (RS.rawDelay RS.defaults 0) RS.defaults.maxJitter⌋
      ∧ 0 ≤ (mkRat 1 2) * min (RS.rawDelay RS.defaults 0) RS.defaults.maxJitter
      ∧ (mkRat 1 2) * min (RS.rawDelay RS.defaults 0) RS.defaults.maxJitter
          ≤ min (RS.rawDelay RS.defaults 0) RS.defaults.maxJitter)
    ∧ (RS.defaults.jitter = false → RS.getDelay RS.defaults (mkRat 1 2) 0 = ⌊RS.rawDelay RS.defaults 0⌋)
    ∧ RS.rawDelay RS.defaults 0 ≤ RS.rawDelay RS.defaults 1
    ∧ (RS.defaults.jitter = false →
        RS.getDelay RS.defaults (mkRat 1 2) 0 ≤ RS.getDelay RS.defaults (mkRat 1 2) 1)
    ∧ (RS.defaults.jitter = false → (RS.getDelay RS.defaults (mkRat 1 2) 0 : ℚ) ≤ RS.defaults.maxDelay)
    ∧ RS.next RS.defaults (mkRat 1 2) 0 = (RS.getDelay RS.defaults (mkRat 1 2) 0, 1)
    ∧ RS.getAttempts RS.reset = 0 :=
  rs_delay_spec RS.defaults (mkRat 1 2) 0 (by decide) (by decide) (by decide)
    (by decide) (by decide) (by decide)

/-- C9 counterexample: on quota exhaustion the code evicts but does not
retry the failed write.  With two prefixed entries (timestamps 1 and 2), a
quota failure on the first attempt (`canWrite 0 = false`) and room
afterwards (`canWrite 1 = true`), the source's `set` leaves only the newer
entry and never writes the new key, while the claim's evict-then-retry
semantics would contain it. -/
theorem st_set_no_retry_cex :
    ST.set (fun i => decide (0 < i)) 7 "c" "v"
        [("weni:webchat:a", { versionF := some "1.0.0", timestampF := some 1, dataF := some "xa" }),
         ("weni:webchat:b", { versionF := some "1.0.0", timestampF := some 2, dataF := some "xb" })]
      = [("weni:webchat:b", { versionF := some "1.0.0", timestampF := some 2, dataF := some "xb" })]
    ∧ ST.setWithRetrySpec (fun i => decide (0 < i)) 7 "c" "v"
        [("weni:webchat:a", { versionF := some "1.0.0", timestampF := some 1, dataF := some "xa" }),
         ("weni:webchat:b", { versionF := some "1.0.0", timestampF := some 2, dataF := some "xb" })]
      = [("weni:webchat:b", { versionF := some "1.0.0", timestampF := some 2, dataF := some "xb" }),
         ("weni:webchat:c", { versionF := some "1.0.0", timestampF := some 7, dataF := some "v" })]
    ∧ ST.set (fun i => decide (0 < i)) 7 "c" "v"
        [("weni:webchat:a", { versionF := some "1.0.0", timestampF := some 1, dataF := some "xa" }),
         ("weni:webchat:b", { versionF := some "1.0.0", timestampF := some 2, dataF := some "xb" })]
      ≠ ST.setWithRetrySpec (fun i => decide (0 < i)) 7 "c" "v"
        [("weni:webchat:a", { versionF := some "1.0.0", timestampF := some 1, dataF := some "xa" }),
         ("weni:webchat:b", { versionF := some "1.0.0", timestampF := some 2, dataF := some "xb" })] := by
  refine ⟨by decide, by decide, by decide⟩

/-- C9 amended: when a write fails with quota exhaustion, `set` evicts the
oldest ⌈25%⌉ of prefixed entries by ascending envelope timestamp and stops —
the failed write is *not* retried: the evicted keys number
`min ⌈n/4⌉ n` over the `n` prefixed entries, every evicted key is a
prefixed key of the store, an entry survives iff its key is not a victim,
every evicted entry's timestamp is ≤ every surviving prefixed entry's, and
the written key appears afterwards only if it was already present. -/
theorem st_quota_eviction_amended (canWrite : ℕ → Bool) (now : ℕ) (key value : String)
    (st : List (String × ST.StoredVal))
    (hq : canWrite 0 = false)
    (hnd : (st.map Prod.fst).Nodup) :
    ST.set canWrite now key value st = ST.handleQuotaExceeded st
    ∧ (ST.victimKeys st).length = min (ST.removeCount st) (ST.prefixedItems st).length
    ∧ (∀ k ∈ ST.victimKeys st, ∃ p, p ∈ st ∧ p.1 = k ∧ ST.startsWithNS p.1 = true)
    ∧ (∀ p ∈ st, (p ∈ ST.handleQuotaExceeded st ↔ p.1 ∉ ST.victimKeys st))
    ∧ (∀ p ∈ st, p.1 ∈ ST.victimKeys st →
        ∀ q ∈ ST.handleQuotaExceeded st, ST.startsWithNS q.1 = true →
          ST.tsOf p ≤ ST.tsOf q)
    ∧ (ST.getFullKey key ∉ st.map Prod.fst →
        ST.getFullKey key ∉ (ST.set canWrite now key value st).map Prod.fst) := by
  have hset : ST.set canWrite now key value st = ST.handleQuotaExceeded st := by
    simp [ST.set, hq]
  have hsortlen : (ST.sortByTs (ST.prefixedItems st)).length = (ST.prefixedItems st).length :=
    (ST.perm_sortByTs (ST.prefixedItems st)).length_eq
  have hmem_items : ∀ {p}, p ∈ ST.prefixedItems st ↔ p ∈ st ∧ ST.startsWithNS p.1 = true := by
    intro p
    simp [ST.prefixedItems, List.mem_filter]
  have hmemQuota : ∀ {p}, p ∈ ST.handleQuotaExceeded st ↔ p ∈ st ∧ p.1 ∉ ST.victimKeys st := by
    intro p
    simp [ST.handleQuotaExceeded, List.mem_filter]
  refine ⟨hset, ?_, ?_, ?_, ?_, ?_⟩
  · simp [ST.victimKeys, List.length_take, hsortlen]
  · intro k hk
    obtain ⟨p, hpt, hpk⟩ := List.mem_map.mp hk
    have hp : p ∈ ST.prefixedItems st :=
      (ST.perm_sortByTs (ST.prefixedItems st)).mem_iff.mp (List.take_subset _ _ hpt)
    exact ⟨p, (hmem_items.mp hp).1, hpk, (hmem_items.mp hp).2⟩
  · intro p hp
    rw [hmemQuota]
    simp [hp]
  · intro p hp hpk q hqm hqpref
    obtain ⟨pv, hpvt, hpvk⟩ := List.mem_map.mp hpk
    have hpv : pv ∈ st :=
      (hmem_items.mp ((ST.perm_sortByTs (ST.prefixedItems st)).mem_iff.mp
        (List.take_subset _ _ hpvt))).1
    have hpeq : pv = p := List.inj_on_of_nodup_map hnd hpv hp hpvk
    obtain ⟨hqst, hqknot⟩ := hmemQuota.mp hqm
    have hqitems : q ∈ ST.prefixedItems st := hmem_items.mpr ⟨hqst, hqpref⟩
    have hqsorted : q ∈ ST.sortByTs (ST.prefixedItems st) :=
      (ST.perm_sortByTs (ST.prefixedItems st)).mem_iff.mpr hqitems
    have hqsplit : q ∈ (ST.sortByTs (ST.prefixedItems st)).take (ST.removeCount st)
        ∨ q ∈ (ST.sortByTs (ST.prefixedItems st)).drop (ST.removeCount st) := by
      rw [← List.mem_append, List.take_append_drop]
      exact hqsorted
    have hqdrop : q ∈ (ST.sortByTs (ST.prefixedItems st)).drop (ST.removeCount st) := by
      rcases hqsplit with hin | hin
      · exact absurd (List.mem_map.mpr ⟨q, hin, rfl⟩) hqknot
      · exact hin
    have hpair := ST.sorted_sortByTs (ST.prefixedItems st)
    rw [← List.take_append_drop (ST.removeCount st) (ST.sortByTs (ST.prefixedItems st))]
      at hpair
    have := (List.pairwise_append.mp hpair).2.2 pv hpvt q hqdrop
    rw [hpeq] at this
    exact this
  · intro hnot hmem
    rw [hset] at hmem
    obtain ⟨p, hpq, hpk⟩ := List.mem_map.mp hmem
    exact hnot (List.mem_map.mpr ⟨p, (hmemQuota.mp hpq).1, hpk⟩)

theorem st_quota_eviction_amended_witness :
    ST.set (fun _ => false) 7 "c" "v"
        [("weni:webchat:a", { versionF := some "1.0.0", timestampF := some 1, dataF := some "xa" }),
         ("weni:webchat:b", { versionF := some "1.0.0", timestampF := some 2, dataF := some "xb" })]
      = ST.handleQuotaExceeded
        [("weni:webchat:a", { versionF := some "1.0.0", timestampF := some 1, dataF := some "xa" }),
         ("weni:webchat:b", { versionF := some "1.0.0", timestampF := some 2, dataF := some "xb" })]
    ∧ (ST.victimKeys
        [("weni:webchat:a", { versionF := some "1.0.0", timestampF := some 1, dataF := some "xa" }),
         ("weni:webchat:b", { versionF := some "1.0.0", timestampF := some 2, dataF := some "xb" })]).length
      = 1 := by
  have h := st_quota_eviction_amended (fun _ => false) 7 "c" "v"
    [("weni:webchat:a", { versionF := some "1.0.0", timestampF := some 1, dataF := some "xa" }),
     ("weni:webchat:b", { versionF := some "1.0.0", timestampF := some 2, dataF := some "xb" })]
    (by decide) (by decide)
  refine ⟨h.1, ?_⟩
  rw [h.2.1]
  decide

namespace MP

/-! Infrastructure for C1: the in-order reassembly invariant. -/

/-- The ascending delta list `(k, v₁), (k+1, v₂), …` for a payload list. -/
def seqDeltasFrom (k : ℕ) : List String → List (ℕ × String)
  | [] => []
  | v :: t => (k, v) :: seqDeltasFrom (k + 1) t

/-- The deltas `(1, v₁) … (n, vₙ)` of a payload list. -/
def seqDeltas (vs : List String) : List (ℕ × String) :=
  seqDeltasFrom 1 vs

/-- Concatenation of a payload list. -/
def joinAll : List String → String
  | [] => ""
  | s :: t => s ++ joinAll t

/-- Concatenation of the first `k` payloads. -/
def joinTake (k : ℕ) (vs : List String) : String :=
  joinAll (vs.take k)

theorem joinTake_zero (vs : List String) : joinTake 0 vs = "" := rfl

theorem joinTake_succ (k : ℕ) (vs : List String) (h : k < vs.length) :
    joinTake (k + 1) vs = joinTake k vs ++ vs.getD k "" := by
  induction vs generalizing k with
  | nil => simp at h
  | cons v t ih =>
    cases k with
    | zero => simp [joinTake, joinAll]
    | succ k' =>
      have ht : k' < t.length := by simpa using h
      simp only [joinTake, List.take_succ_cons, joinAll, List.getD_cons_succ] at ih ⊢
      rw [ih k' ht, String.append_assoc]

theorem joinTake_length (vs : List String) : joinTake vs.length vs = joinAll vs := by
  simp [joinTake, List.take_length]

theorem mem_seqDeltasFrom {k : ℕ} {vs : List String} {p : ℕ × String} :
    p ∈ seqDeltasFrom k vs
      ↔ ∃ i : ℕ, k ≤ i ∧ i < k + vs.length ∧ p = (i, vs.getD (i - k) "") := by
  induction vs generalizing k with
  | nil =>
    simp only [seqDeltasFrom, List.not_mem_nil, false_iff]
    rintro ⟨i, h1, h2, _⟩
    simp at h2
    omega
  | cons v t ih =>
    simp only [seqDeltasFrom, List.mem_cons, ih, List.length_cons]
    constructor
    · rintro (rfl | ⟨i, h1, h2, rfl⟩)
      · exact ⟨k, le_refl k, by omega, by simp⟩
      · refine ⟨i, by omega, by omega, ?_⟩
        have hik : i - k = (i - (k + 1)) + 1 := by omega
        rw [hik, List.getD_cons_succ]
    · rintro ⟨i, h1, h2, rfl⟩
      rcases eq_or_lt_of_le h1 with rfl | hlt
      · left
        simp
      · right
        refine ⟨i, by omega, by omega, ?_⟩
        have hik : i - k = (i - (k + 1)) + 1 := by omega
        rw [hik, List.getD_cons_succ]

theorem map_fst_seqDeltasFrom (k : ℕ) (vs : List String) :
    (seqDeltasFrom k vs).map Prod.fst = List.range' k vs.length := by
  induction vs generalizing k with
  | nil => simp [seqDeltasFrom]
  | cons v t ih => simp [seqDeltasFrom, List.range'_succ, ih]

theorem nodup_map_fst_seqDeltas (vs : List String) :
    ((seqDeltas vs).map Prod.fst).Nodup := by
  rw [seqDeltas, map_fst_seqDeltasFrom]
  exact List.nodup_range' _ _

/-- The stream bookkeeping part of the reassembly invariant: the active
stream is `sid` and its accumulated text is the concatenation of the first
`nextExpectedSeq − 1` payloads. -/
def StreamOk (vs : List String) (sid : String) (s : ProcState) : Prop :=
  s.activeStreamId = some sid
  ∧ 1 ≤ s.nextExpectedSeq
  ∧ s.nextExpectedSeq - 1 ≤ vs.length
  ∧ ∃ ts, listGet (some sid) s.streams
      = some ⟨joinTake (s.nextExpectedSeq - 1) vs, ts⟩

/-- The buffer part of the invariant, relative to the not-yet-delivered
deltas `rest`: every buffered entry is a delivered delta with sequence
number in `[lo, n]`, and every delivered delta in that range is buffered. -/
def PendingCoversFrom (vs : List String) (rest : List (ℕ × String)) (lo : ℕ)
    (s : ProcState) : Prop :=
  (∀ q c, listGet q s.pendingDeltas = some c →
    ∃ i : ℕ, q = (i : ℚ) ∧ lo ≤ i ∧ i ≤ vs.length
      ∧ c = vs.getD (i - 1) "" ∧ (i, c) ∉ rest)
  ∧ (∀ i : ℕ, lo ≤ i → i ≤ vs.length → (i, vs.getD (i - 1) "") ∉ rest →
    listGet ((i : ℚ)) s.pendingDeltas = some (vs.getD (i - 1) ""))

/-- Every delta below `k` has already been delivered. -/
def Below (vs : List String) (rest : List (ℕ × String)) (k : ℕ) : Prop :=
  ∀ i : ℕ, 1 ≤ i → i < k → (i, vs.getD (i - 1) "") ∉ rest

/-- The reassembly invariant between frames. -/
def Inv (vs : List String) (sid : String) (rest : List (ℕ × String))
    (s : ProcState) : Prop :=
  StreamOk vs sid s
  ∧ PendingCoversFrom vs rest (s.nextExpectedSeq + 1) s
  ∧ Below vs rest s.nextExpectedSeq
  ∧ (s.nextExpectedSeq ≤ vs.length →
      (s.nextExpectedSeq, vs.getD (s.nextExpectedSeq - 1) "") ∈ rest)

end MP

namespace MP

theorem stopTyping_fields (s : ProcState) :
    (stopTyping s).activeStreamId = s.activeStreamId
    ∧ (stopTyping s).streams = s.streams
    ∧ (stopTyping s).pendingDeltas = s.pendingDeltas
    ∧ (stopTyping s).nextExpectedSeq = s.nextExpectedSeq := by
  simp [stopTyping]

theorem handleFirstDelta_fields (now : ℕ) (s : ProcState) :
    (handleFirstDelta now s).activeStreamId = s.activeStreamId
    ∧ (handleFirstDelta now s).streams = s.streams
    ∧ (handleFirstDelta now s).pendingDeltas = s.pendingDeltas
    ∧ (handleFirstDelta now s).nextExpectedSeq = s.nextExpectedSeq := by
  by_cases h1 : s.isTypingActive = true ∨ s.isThinkingActive = true <;>
    by_cases h2 : s.streamMessageEmitted = true <;>
    simp [handleFirstDelta, h1, h2, stopTyping, emitDeferredStreamMessage, pushQueue, emitOne]

/-- `Inv` only reads the four stream-bookkeeping fields. -/
theorem Inv_of_fields_eq {vs : List String} {sid : String} {rest : List (ℕ × String)}
    {s s' : ProcState}
    (ha : s'.activeStreamId = s.activeStreamId) (hs : s'.streams = s.streams)
    (hp : s'.pendingDeltas = s.pendingDeltas) (hn : s'.nextExpectedSeq = s.nextExpectedSeq)
    (h : Inv vs sid rest s) : Inv vs sid rest s' := by
  obtain ⟨⟨h1, h2, h3, h4⟩, h5, h6, h7⟩ := h
  exact ⟨⟨by rw [ha]; exact h1, by rw [hn]; exact h2, by rw [hn]; exact h3,
      by rw [hs, hn]; exact h4⟩,
    by rw [hn]; constructor
       · intro q c hq; rw [hp] at hq; exact h5.1 q c hq
       · intro i hi1 hi2 hi3; rw [hp]; exact h5.2 i hi1 hi2 hi3,
    by rw [hn]; exact h6, by rw [hn]; exact h7⟩

theorem appendStreamContent_of_get {sid0 : Option String} {s : ProcState} {cur : StreamData}
    (now : ℕ) (c : String) (h : listGet sid0 s.streams = some cur) :
    appendStreamContent now sid0 c s
      = { s with streams := listSet sid0 ⟨cur.text ++ c, now⟩ s.streams,
                 events := s.events ++ [.updated sid0 (cur.text ++ c) "streaming" now] } := by
  simp [appendStreamContent, h]

/-- The drain loop re-establishes the invariant: starting from a state
whose buffer covers the delivered deltas from `nextExpectedSeq` upwards,
`_applyPendingDeltas` consumes the contiguous buffered run and leaves the
invariant relative to `rest`. -/
theorem applyPendingDeltasAux_spec (vs : List String) (sid : String)
    (rest : List (ℕ × String)) (now : ℕ) :
    ∀ (fuel : ℕ) (s : ProcState),
    s.pendingDeltas.length ≤ fuel →
    StreamOk vs sid s →
    PendingCoversFrom vs rest s.nextExpectedSeq s →
    Below vs rest s.nextExpectedSeq →
    Inv vs sid rest (applyPendingDeltasAux now (some sid) fuel s) := by
  intro fuel
  induction fuel with
  | zero =>
    intro s hlen hso hpc hb
    have hempty : s.pendingDeltas = [] := List.length_eq_zero.mp (Nat.le_zero.mp hlen)
    show Inv vs sid rest s
    refine ⟨hso, ⟨?_, ?_⟩, hb, ?_⟩
    · intro q c hq
      rw [hempty] at hq
      simp [listGet] at hq
    · intro i hi1 hi2 hi3
      have h := hpc.2 i (by omega) hi2 hi3
      rw [hempty] at h
      simp [listGet] at h
    · intro hle
      by_contra hmem
      have h := hpc.2 s.nextExpectedSeq (le_refl _) hle hmem
      rw [hempty] at h
      simp [listGet] at h
  | succ fuel ih =>
    intro s hlen hso hpc hb
    obtain ⟨hact, hk1, hkn, ts0, hstream⟩ := hso
    cases hget : listGet ((s.nextExpectedSeq : ℚ)) s.pendingDeltas with
    | none =>
      have hres : applyPendingDeltasAux now (some sid) (fuel + 1) s = s := by
        simp only [applyPendingDeltasAux, hget]
      rw [hres]
      refine ⟨⟨hact, hk1, hkn, ts0, hstream⟩, ⟨?_, ?_⟩, hb, ?_⟩
      · intro q c hq
        obtain ⟨i, hqi, hlo, hin, hc, hr⟩ := hpc.1 q c hq
        refine ⟨i, hqi, ?_, hin, hc, hr⟩
        rcases eq_or_lt_of_le hlo with rfl | h
        · rw [hqi] at hq
          rw [hq] at hget
          exact absurd hget (by simp)
        · omega
      · intro i hi1 hi2 hi3
        exact hpc.2 i (by omega) hi2 hi3
      · intro hle
        by_contra hmem
        have h := hpc.2 s.nextExpectedSeq (le_refl _) hle hmem
        rw [h] at hget
        exact absurd hget (by simp)
    | some c =>
      obtain ⟨i, hqi, hlo, hin, hc, hr⟩ := hpc.1 _ c hget
      have hik : i = s.nextExpectedSeq := by exact_mod_cast hqi.symm
      subst hik
      have hstream1 : listGet (some sid)
          ({ s with pendingDeltas := listErase ((s.nextExpectedSeq : ℚ)) s.pendingDeltas }).streams
          = some ⟨joinTake (s.nextExpectedSeq - 1) vs, ts0⟩ := hstream
      have hres : applyPendingDeltasAux now (some sid) (fuel + 1) s
          = applyPendingDeltasAux now (some sid) fuel
              { appendStreamContent now (some sid) c
                  { s with pendingDeltas := listErase ((s.nextExpectedSeq : ℚ)) s.pendingDeltas }
                with nextExpectedSeq :=
                  (appendStreamContent now (some sid) c
                    { s with pendingDeltas :=
                        listErase ((s.nextExpectedSeq : ℚ)) s.pendingDeltas }).nextExpectedSeq
                  + 1 } := by
        simp only [applyPendingDeltasAux, hget]
      rw [hres, appendStreamContent_of_get now c hstream1]
      have htext : joinTake (s.nextExpectedSeq - 1) vs ++ c
          = joinTake (s.nextExpectedSeq + 1 - 1) vs := by
        rw [hc]
        have h1 : s.nextExpectedSeq + 1 - 1 = (s.nextExpectedSeq - 1) + 1 := by omega
        rw [h1, joinTake_succ (s.nextExpectedSeq - 1) vs (by omega)]
      apply ih
      · show (listErase ((s.nextExpectedSeq : ℚ)) s.pendingDeltas).length ≤ fuel
        have hlt := listErase_length_lt hget
        omega
      · refine ⟨hact, ?_, ?_, now, ?_⟩
        · show 1 ≤ s.nextExpectedSeq + 1
          omega
        · show s.nextExpectedSeq + 1 - 1 ≤ vs.length
          omega
        · show listGet (some sid)
              (listSet (some sid) ⟨joinTake (s.nextExpectedSeq - 1) vs ++ c, now⟩ s.streams)
            = some ⟨joinTake (s.nextExpectedSeq + 1 - 1) vs, now⟩
          rw [listGet_listSet_self, htext]
      · constructor
        · intro q c1 hq
          have hq1 : listGet q (listErase ((s.nextExpectedSeq : ℚ)) s.pendingDeltas)
              = some c1 := hq
          by_cases hqk : q = ((s.nextExpectedSeq : ℕ) : ℚ)
          · rw [hqk, listGet_listErase_self] at hq1
            exact absurd hq1 (by simp)
          · rw [listGet_listErase_ne _ hqk] at hq1
            obtain ⟨i1, hqi1, hlo1, hin1, hc1, hr1⟩ := hpc.1 q c1 hq1
            refine ⟨i1, hqi1, ?_, hin1, hc1, hr1⟩
            show s.nextExpectedSeq + 1 ≤ i1
            have hne : i1 ≠ s.nextExpectedSeq := by
              intro hcon
              exact hqk (by rw [hqi1, hcon])
            omega
        · intro i1 hi1 hi2 hi3
          have hi1a : s.nextExpectedSeq + 1 ≤ i1 := hi1
          show listGet ((i1 : ℕ) : ℚ) (listErase ((s.nextExpectedSeq : ℚ)) s.pendingDeltas)
            = some (vs.getD (i1 - 1) "")
          have hne : ((i1 : ℕ) : ℚ) ≠ ((s.nextExpectedSeq : ℕ) : ℚ) := by
            exact_mod_cast by omega
          rw [listGet_listErase_ne _ hne]
          exact hpc.2 i1 (by omega) hi2 hi3
      · intro i1 hi1 hi2
        have hi2a : i1 < s.nextExpectedSeq + 1 := hi2
        rcases Nat.lt_or_ge i1 s.nextExpectedSeq with h | h
        · exact hb i1 hi1 h
        · have heq : i1 = s.nextExpectedSeq := by omega
          rw [heq, ← hc]
          exact hr

end MP

namespace MP

theorem applyPendingDeltas_spec (vs : List String) (sid : String)
    (rest : List (ℕ × String)) (now : ℕ) (s : ProcState)
    (hso : StreamOk vs sid s) (hpc : PendingCoversFrom vs rest s.nextExpectedSeq s)
    (hb : Below vs rest s.nextExpectedSeq) :
    Inv vs sid rest (applyPendingDeltas now (some sid) s) :=
  applyPendingDeltasAux_spec vs sid rest now _ s (le_refl _) hso hpc hb

theorem not_mem_cons_of_ne_of_not_mem {j i : ℕ} {c v : String} {rest : List (ℕ × String)}
    (hne : i ≠ j) (hnm : (i, v) ∉ rest) : (i, v) ∉ (j, c) :: rest := by
  intro h
  rcases List.mem_cons.mp h with heq | hrest
  · exact hne (by injection heq with h1 h2)
  · exact hnm hrest

theorem not_mem_of_fst_not_mem {j : ℕ} {v : String} {rest : List (ℕ × String)}
    (h : j ∉ rest.map Prod.fst) : (j, v) ∉ rest := by
  intro hmem
  exact h (List.mem_map.mpr ⟨(j, v), hmem, rfl⟩)

/-- One delta-application step of the reassembly invariant, at the level of
`_processDeltaSequence`. -/
theorem processDeltaSequence_step (now : ℕ) (vs : List String) (sid : String)
    (j : ℕ) (c : String) (rest : List (ℕ × String)) (t : ProcState)
    (hinv : Inv vs sid ((j, c) :: rest) t)
    (hj : 1 ≤ j) (hjn : j ≤ vs.length) (hc : c = vs.getD (j - 1) "")
    (hnodup : j ∉ rest.map Prod.fst) :
    Inv vs sid rest (processDeltaSequence now ((j : ℕ) : ℚ) c t) := by
  obtain ⟨⟨hact, hk1, hkn, ts0, hstream⟩, hpc, hb, hnext⟩ := hinv
  rcases lt_trichotomy j t.nextExpectedSeq with hlt | heq | hgt
  · refine absurd (show (j, vs.getD (j - 1) "") ∈ (j, c) :: rest from ?_) (hb j hj hlt)
    rw [← hc]
    exact List.mem_cons_self _ _
  · simp only [processDeltaSequence]
    rw [if_pos (by exact_mod_cast heq), hact, appendStreamContent_of_get now c hstream]
    have htext : joinTake (t.nextExpectedSeq - 1) vs ++ c
        = joinTake (t.nextExpectedSeq + 1 - 1) vs := by
      rw [hc, heq]
      have h1 : t.nextExpectedSeq + 1 - 1 = (t.nextExpectedSeq - 1) + 1 := by omega
      rw [h1, joinTake_succ (t.nextExpectedSeq - 1) vs (by omega)]
    apply applyPendingDeltas_spec
    · refine ⟨hact, ?_, ?_, now, ?_⟩
      · show 1 ≤ t.nextExpectedSeq + 1
        omega
      · show t.nextExpectedSeq + 1 - 1 ≤ vs.length
        omega
      · show listGet (some sid)
            (listSet (some sid) ⟨joinTake (t.nextExpectedSeq - 1) vs ++ c, now⟩ t.streams)
          = some ⟨joinTake (t.nextExpectedSeq + 1 - 1) vs, now⟩
        rw [listGet_listSet_self, htext]
    · constructor
      · intro q c1 hq
        have hq1 : listGet q t.pendingDeltas = some c1 := hq
        obtain ⟨i, hqi, hlo, hin, hc1, hr1⟩ := hpc.1 q c1 hq1
        exact ⟨i, hqi, hlo, hin, hc1, fun h => hr1 (List.mem_cons_of_mem _ h)⟩
      · intro i hi1 hi2 hi3
        have hi1a : t.nextExpectedSeq + 1 ≤ i := hi1
        show listGet ((i : ℕ) : ℚ) t.pendingDeltas = some (vs.getD (i - 1) "")
        exact hpc.2 i hi1a hi2
          (not_mem_cons_of_ne_of_not_mem (by omega) hi3)
    · intro i hi1 hi2
      have hi2a : i < t.nextExpectedSeq + 1 := hi2
      rcases Nat.lt_or_ge i t.nextExpectedSeq with h | h
      · exact fun hm => hb i hi1 h (List.mem_cons_of_mem _ hm)
      · have heqi : i = j := by omega
        rw [heqi, ← hc]
        exact not_mem_of_fst_not_mem hnodup
  · simp only [processDeltaSequence]
    have hnej : ((j : ℕ) : ℚ) ≠ ((t.nextExpectedSeq : ℕ) : ℚ) := by
      exact_mod_cast (by omega : j ≠ t.nextExpectedSeq)
    have hltq : ((t.nextExpectedSeq : ℕ) : ℚ) < ((j : ℕ) : ℚ) := by exact_mod_cast hgt
    rw [if_neg hnej, if_pos hltq]
    refine ⟨⟨hact, hk1, hkn, ts0, hstream⟩, ⟨?_, ?_⟩, ?_, ?_⟩
    · intro q c1 hq
      have hq1 : listGet q (listSet ((j : ℕ) : ℚ) c t.pendingDeltas) = some c1 := hq
      by_cases hqj : q = ((j : ℕ) : ℚ)
      · rw [hqj, listGet_listSet_self] at hq1
        injection hq1 with hq2
        refine ⟨j, hqj, ?_, hjn, by rw [← hq2, hc], ?_⟩
        · show t.nextExpectedSeq + 1 ≤ j
          omega
        · rw [← hq2]
          exact not_mem_of_fst_not_mem hnodup
      · rw [listGet_listSet_ne _ _ hqj] at hq1
        obtain ⟨i, hqi, hlo, hin, hc1, hr1⟩ := hpc.1 q c1 hq1
        exact ⟨i, hqi, hlo, hin, hc1, fun h => hr1 (List.mem_cons_of_mem _ h)⟩
    · intro i hi1 hi2 hi3
      have hi1a : t.nextExpectedSeq + 1 ≤ i := hi1
      show listGet ((i : ℕ) : ℚ) (listSet ((j : ℕ) : ℚ) c t.pendingDeltas)
        = some (vs.getD (i - 1) "")
      by_cases hij : i = j
      · rw [hij, listGet_listSet_self, ← hc]
      · have hne : ((i : ℕ) : ℚ) ≠ ((j : ℕ) : ℚ) := by exact_mod_cast hij
        rw [listGet_listSet_ne _ _ hne]
        exact hpc.2 i hi1a hi2 (not_mem_cons_of_ne_of_not_mem hij hi3)
    · intro i hi1 hi2
      have hi2a : i < t.nextExpectedSeq := hi2
      exact fun hm => hb i hi1 hi2a (List.mem_cons_of_mem _ hm)
    · intro hle
      have hle1 : t.nextExpectedSeq ≤ vs.length := hle
      rcases List.mem_cons.mp (hnext hle1) with heq1 | hmem
      · have h1 : t.nextExpectedSeq = j := by
          have h2 := congrArg Prod.fst heq1
          simpa using h2
        exact absurd h1 (by omega)
      · exact hmem

end MP

namespace MP

/-- With an active stream and a valid integer sequence number,
`_processDelta` reduces to `_processDeltaSequence` after the (stream-state
preserving) first-delta handling. -/
theorem processDelta_deltaFrame (now : ℕ) (j : ℕ) (c : String) (s : ProcState)
    (hj : 1 ≤ j) (hact : s.activeStreamId.isSome = true) :
    processDelta now (deltaFrame ((j : ℕ) : ℚ) c) s
      = processDeltaSequence now ((j : ℕ) : ℚ) c
          (if s.nextExpectedSeq = 1 then handleFirstDelta now s else s) := by
  have hvalid : (1 : ℚ) ≤ ((j : ℕ) : ℚ) := by exact_mod_cast hj
  cases hcase : s.activeStreamId with
  | none => rw [hcase] at hact; simp at hact
  | some v =>
    simp [processDelta, deltaFrame, hvalid, hcase]

/-- One full `process` step of the reassembly invariant. -/
theorem processFrame_delta_step (cfg : MPConfig) (now : ℕ) (fid : String)
    (vs : List String) (sid : String) (j : ℕ) (c : String)
    (rest : List (ℕ × String)) (s : ProcState)
    (hinv : Inv vs sid ((j, c) :: rest) s)
    (hj : 1 ≤ j) (hjn : j ≤ vs.length) (hc : c = vs.getD (j - 1) "")
    (hnodup : j ∉ rest.map Prod.fst) :
    Inv vs sid rest (processFrame cfg now fid (deltaFrame ((j : ℕ) : ℚ) c) s) := by
  have hact : s.activeStreamId.isSome = true := by rw [hinv.1.1]; rfl
  rw [processFrame_eq_processDelta cfg now fid s (extractMessageType_deltaFrame _ _),
    processDelta_deltaFrame now j c s hj hact]
  refine processDeltaSequence_step now vs sid j c rest _ ?_ hj hjn hc hnodup
  by_cases h : s.nextExpectedSeq = 1
  · rw [if_pos h]
    obtain ⟨h1, h2, h3, h4⟩ := handleFirstDelta_fields now s
    exact Inv_of_fields_eq h1 h2 h3 h4 hinv
  · rw [if_neg h]
    exact hinv

/-- Folding the whole arrival list drains `rest` down to `[]`. -/
theorem foldl_delta_inv (cfg : MPConfig) (now : ℕ) (fid : String)
    (vs : List String) (sid : String) :
    ∀ (arr : List (ℕ × String)) (s : ProcState),
    Inv vs sid arr s →
    (∀ p ∈ arr, ∃ i : ℕ, 1 ≤ i ∧ i ≤ vs.length ∧ p = (i, vs.getD (i - 1) "")) →
    (arr.map Prod.fst).Nodup →
    Inv vs sid []
      (arr.foldl (fun t d => processFrame cfg now fid (deltaFrame ((d.1 : ℕ) : ℚ) d.2) t) s) := by
  intro arr
  induction arr with
  | nil => intro s hinv _ _; exact hinv
  | cons p rest ih =>
    intro s hinv hmem hnd
    obtain ⟨i, hi1, hi2, hp⟩ := hmem p (List.mem_cons_self _ _)
    rw [List.map_cons, List.nodup_cons] at hnd
    rw [List.foldl_cons]
    subst hp
    apply ih
    · exact processFrame_delta_step cfg now fid vs sid i _ rest s hinv hi1 hi2 rfl hnd.1
    · intro q hq
      exact hmem q (List.mem_cons_of_mem _ hq)
    · exact hnd.2

end MP

namespace MP

/-- The state right after `stream_start` satisfies the reassembly invariant
relative to the full arrival list. -/
theorem Inv_streamStart (cfg : MPConfig) (now : ℕ) (fid : String) (vs : List String)
    (rawId : String) (hraw : rawId ≠ "") (arr : List (ℕ × String))
    (hperm : List.Perm arr (seqDeltas vs)) :
    Inv vs ("msg_" ++ rawId) arr
      (processFrame cfg now fid (streamStartFrame rawId) mpInit) := by
  have hmid : getMessageIdFromRaw (streamStartFrame rawId) = some ("msg_" ++ rawId) := by
    simp [getMessageIdFromRaw, streamStartFrame, jsOr, strTruthy, hraw]
  have hmemarr : ∀ i : ℕ, 1 ≤ i → i ≤ vs.length → (i, vs.getD (i - 1) "") ∈ arr := by
    intro i h1 h2
    rw [hperm.mem_iff, seqDeltas, mem_seqDeltasFrom]
    exact ⟨i, h1, by omega, rfl⟩
  rw [processFrame_eq_processStreamStart cfg now fid mpInit (by rfl)]
  have hred : processStreamStart now (streamStartFrame rawId) mpInit
      = { resetStreamState (some ("msg_" ++ rawId)) mpInit with
          streams := listSet (some ("msg_" ++ rawId)) ⟨"", now⟩
            (resetStreamState (some ("msg_" ++ rawId)) mpInit).streams } := by
    simp only [processStreamStart, hmid]
  rw [hred]
  refine ⟨?_, ?_, ?_, ?_⟩
  · refine ⟨rfl, le_refl _, ?_, now, ?_⟩
    · show (1 : ℕ) - 1 ≤ vs.length
      omega
    · show listGet (some ("msg_" ++ rawId))
          (listSet (some ("msg_" ++ rawId)) (⟨"", now⟩ : StreamData) [])
        = some (⟨joinTake 0 vs, now⟩ : StreamData)
      rw [listGet_listSet_self, joinTake_zero]
  · refine ⟨?_, ?_⟩
    · intro q c hq
      have hq1 : listGet q ([] : List (ℚ × String)) = some c := hq
      simp [listGet] at hq1
    · intro i hi1 hi2 hi3
      exact absurd (hmemarr i (by omega) hi2) hi3
  · intro i hi1 hi2
    have : i < 1 := hi2
    omega
  · intro hle
    exact hmemarr 1 (le_refl _) hle

end MP

/-- C1: for any payload list `v₁ … vₙ` delivered as delta frames with
sequence numbers `1 … n` in any arrival order to a single active stream
(opened by `stream_start`), the final accumulated stream text equals the
concatenation `v₁ ++ … ++ vₙ` in ascending sequence order: in-order deltas
are appended immediately, greater-than-expected deltas are buffered in
`pendingDeltas` and greedily drained in ascending order once the gap
closes. -/
theorem mp_stream_reassembly (cfg : MP.MPConfig) (now : ℕ) (fid : String)
    (vs : List String) (rawId : String) (arr : List (ℕ × String))
    (hraw : rawId ≠ "")
    (hperm : List.Perm arr (MP.seqDeltas vs)) :
    (MP.listGet (some ("msg_" ++ rawId))
        (arr.foldl (fun t d => MP.processFrame cfg now fid (MP.deltaFrame ((d.1 : ℕ) : ℚ) d.2) t)
          (MP.processFrame cfg now fid (MP.streamStartFrame rawId) MP.mpInit)).streams).map
      (fun d => d.text)
    = some (MP.joinAll vs) := by
  have h0 := MP.Inv_streamStart cfg now fid vs rawId hraw arr hperm
  have hmem : ∀ p ∈ arr, ∃ i : ℕ, 1 ≤ i ∧ i ≤ vs.length ∧ p = (i, vs.getD (i - 1) "") := by
    intro p hp
    obtain ⟨i, h1, h2, h3⟩ := MP.mem_seqDeltasFrom.mp (hperm.mem_iff.mp hp)
    exact ⟨i, h1, by omega, h3⟩
  have hnd : (arr.map Prod.fst).Nodup :=
    ((hperm.map Prod.fst).nodup_iff).mpr (MP.nodup_map_fst_seqDeltas vs)
  have hfinal := MP.foldl_delta_inv cfg now fid vs ("msg_" ++ rawId) arr _ h0 hmem hnd
  obtain ⟨⟨hact, hk1, hkn, ts, hstream⟩, hpc, hb, hnext⟩ := hfinal
  have hkgt : ¬ ((arr.foldl (fun t d => MP.processFrame cfg now fid
      (MP.deltaFrame ((d.1 : ℕ) : ℚ) d.2) t)
      (MP.processFrame cfg now fid (MP.streamStartFrame rawId) MP.mpInit)).nextExpectedSeq
      ≤ vs.length) := fun h => by simpa using hnext h
  have hkeq : (arr.foldl (fun t d => MP.processFrame cfg now fid
      (MP.deltaFrame ((d.1 : ℕ) : ℚ) d.2) t)
      (MP.processFrame cfg now fid (MP.streamStartFrame rawId) MP.mpInit)).nextExpectedSeq - 1
      = vs.length := by omega
  rw [hstream]
  show some (MP.joinTake ((arr.foldl (fun t d => MP.processFrame cfg now fid
      (MP.deltaFrame ((d.1 : ℕ) : ℚ) d.2) t)
      (MP.processFrame cfg now fid (MP.streamStartFrame rawId) MP.mpInit)).nextExpectedSeq - 1) vs)
    = some (MP.joinAll vs)
  rw [hkeq, MP.joinTake_length]

theorem mp_stream_reassembly_witness :
    (MP.listGet (some ("msg_" ++ "B"))
        (([(3, "!"), (1, "Hi"), (2, " ")] : List (ℕ × String)).foldl
          (fun t d => MP.processFrame {} 7 "f" (MP.deltaFrame ((d.1 : ℕ) : ℚ) d.2) t)
          (MP.processFrame {} 7 "f" (MP.streamStartFrame "B") MP.mpInit)).streams).map
      (fun d => d.text)
    = some "Hi !" := by
  have h := mp_stream_reassembly {} 7 "f" ["Hi", " ", "!"] "B" [(3, "!"), (1, "Hi"), (2, " ")]
    (by decide) (by decide)
  exact h.trans (by decide)
